import Mathlib

/-!
# Verification of the Document Comparison Engine

This file gives a shallow embedding, in Lean 4, of the comparison engine of
the PDF-editor repository (the `COMPARE_PDF` branch of
`app/workers/worker.py`) together with the library routine it is built on,
`difflib.SequenceMatcher` from the CPython standard library (the worker calls
`difflib.SequenceMatcher(None, left, right).get_opcodes()`; `isjunk` is
`None` and `autojunk` is left at its default `True` at both call sites).

Conventions of the embedding:
* Python lists become Lean `List`s; token sequences are `List α` with
  decidable equality, matching the generic hashable tokens of difflib.
* Python strings become `List Char`.
* Python dictionaries keyed by `Nat` with `.get(k, 0)` default become total
  functions `Nat → Nat` that are `0` outside the stored keys; the
  insertion-ordered dictionary `by_page` becomes an association list.
* `a[i]` becomes `a.get? i`; every concrete index the worker uses is in
  range, so `a.get? i = b.get? j` coincides with Python's `a[i] == b[j]`
  at all reachable call sites.
* Python's `i - k + 1` on in-range machine integers becomes `i + 1 - k` on
  `Nat` (equal whenever `k ≤ i + 1`, which the algorithm guarantees).
* while-loops become structurally recursive functions on an explicit
  decreasing measure; the worklist loop of `get_matching_blocks` (which the
  difflib source itself describes as the iterative form of a recursive
  algorithm, followed by a sort) is embedded as that recursive algorithm,
  which produces the blocks directly in the sorted order.
-/

namespace PdfCompare

/-- The `Match` named tuple of difflib: a block `a[a:a+size] = b[b:b+size]`. -/
structure Block where
  a : Nat
  b : Nat
  size : Nat
deriving DecidableEq, Repr

variable {α : Type} [DecidableEq α]

/-- All indices `j` with `b[j] = x`, ascending: the raw `b2j` entry built by
`SequenceMatcher.__chain_b` before junk/popular purging. -/
def indicesOf (b : List α) (x : α) : List Nat :=
  (List.range b.length).filter (fun j => b.get? j = some x)

/-- The autojunk test of `__chain_b`: with `autojunk=True`, when
`len(b) >= 200`, elements occurring more than `len(b) // 100 + 1` times are
"popular" and are purged from `b2j`. -/
def isPopular (b : List α) (x : α) : Bool :=
  decide (200 ≤ b.length) && decide (b.length / 100 + 1 < (indicesOf b x).length)

/-- The purged `b2j` mapping of `__chain_b` (with `isjunk = None`, so the
junk purge is empty and only the autojunk purge applies). -/
def b2j (b : List α) (x : α) : List Nat :=
  if isPopular b x then [] else indicesOf b x

/-- State of the inner dynamic-programming loop of `find_longest_match`:
the best block so far and the dictionary `j2len` of the current row. -/
structure DPState where
  best : Block
  j2len : Nat → Nat

/-- One step of the inner loop of the `find_longest_match` DP, at row `i`
and column `j`: `k = j2len.get(j-1, 0) + 1` (reading the previous row `s`;
the `j = 0` guard renders Python's out-of-range read `j2len.get(-1, 0) = 0`),
`newj2len[j] = k`, and the best block is replaced on strict improvement. -/
def dpStep (s : DPState) (i : Nat) (t : (Nat → Nat) × Block) (j : Nat) :
    (Nat → Nat) × Block :=
  let k := (if j = 0 then 0 else s.j2len (j - 1)) + 1
  let nj : Nat → Nat := fun j' => if j' = j then k else t.1 j'
  let m := if t.2.size < k then Block.mk (i + 1 - k) (j + 1 - k) k else t.2
  (nj, m)

/-- One row (`for i in range(alo, ahi)`) of the `find_longest_match` DP:
fold `dpStep` over the indices of `b2j[a[i]]` restricted to `[blo, bhi)`
(the `continue`/`break` guards on the ascending index list). -/
def dpRow (a b : List α) (blo bhi : Nat) (s : DPState) (i : Nat) : DPState :=
  match a.get? i with
  | none => s
  | some x =>
    let js := (b2j b x).filter (fun j => decide (blo ≤ j) && decide (j < bhi))
    let r := js.foldl (dpStep s i) ((fun _ => 0), s.best)
    ⟨r.2, r.1⟩

/-- The full DP phase of `find_longest_match` over rows `alo, …, ahi-1`. -/
def flmDP (a b : List α) (alo ahi blo bhi : Nat) : DPState :=
  (List.range' alo (ahi - alo)).foldl (dpRow a b blo bhi) ⟨⟨alo, blo, 0⟩, fun _ => 0⟩

/-- The first extension loop of `find_longest_match`:
`while besti > alo and bestj > blo and a[besti-1] == b[bestj-1]`, extending
the block backwards.  (`isjunk` is `None`, so `bjunk` is empty: the
`not isbjunk(...)` conjunct is always true and the later junk-only
extension loops never execute; they are therefore omitted.)  The loop's
decreasing counter `besti` is the structural recursion argument; when
`besti = besti' + 1` the read `a[besti-1]` is `a.get? besti'`. -/
def extendBack (a b : List α) (alo blo : Nat) : Nat → Nat → Nat → Block
  | 0, bestj, bestsize => ⟨0, bestj, bestsize⟩
  | besti + 1, bestj, bestsize =>
    if alo < besti + 1 ∧ blo < bestj ∧ (a.get? besti).isSome
        ∧ a.get? besti = b.get? (bestj - 1) then
      extendBack a b alo blo besti (bestj - 1) (bestsize + 1)
    else
      ⟨besti + 1, bestj, bestsize⟩

/-- The body of the second extension loop of `find_longest_match`:
`while besti+bestsize < ahi and bestj+bestsize < bhi and
a[besti+bestsize] == b[bestj+bestsize]`, growing `bestsize`.  The loop's
decreasing measure `ahi - (besti + bestsize)` is passed as the structural
`fuel` argument; it is exact, so the `fuel = 0` return can only happen when
the loop guard is false. -/
def extendFwdAux (a b : List α) (ahi bhi besti bestj : Nat) : Nat → Nat → Nat
  | 0, bestsize => bestsize
  | fuel + 1, bestsize =>
    if besti + bestsize < ahi ∧ bestj + bestsize < bhi
        ∧ (a.get? (besti + bestsize)).isSome
        ∧ a.get? (besti + bestsize) = b.get? (bestj + bestsize) then
      extendFwdAux a b ahi bhi besti bestj fuel (bestsize + 1)
    else
      bestsize

/-- The second extension loop of `find_longest_match`. -/
def extendFwd (a b : List α) (ahi bhi : Nat) (besti bestj bestsize : Nat) : Nat :=
  extendFwdAux a b ahi bhi besti bestj (ahi - (besti + bestsize)) bestsize

/-- `SequenceMatcher.find_longest_match(alo, ahi, blo, bhi)`:
the DP phase followed by the two (non-junk) extension loops. -/
def find_longest_match (a b : List α) (alo ahi blo bhi : Nat) : Block :=
  let s := flmDP a b alo ahi blo bhi
  let m := extendBack a b alo blo s.best.a s.best.b s.best.size
  let k := extendFwd a b ahi bhi m.a m.b m.size
  ⟨m.a, m.b, k⟩

/-- The block-collection recursion of `get_matching_blocks` (the difflib
source maintains an explicit worklist and sorts the collected matches at the
end; the recursion below, which difflib's own comment names as the natural
form of the algorithm, produces exactly that sorted list).  `fuel` bounds the
recursion depth; the caller supplies `(ahi - alo) + (bhi - blo)`, which the
window-shrinking of the recursion never exhausts. -/
def mblocksAux (a b : List α) : Nat → Nat → Nat → Nat → Nat → List Block
  | 0, _, _, _, _ => []
  | fuel + 1, alo, ahi, blo, bhi =>
    let m := find_longest_match a b alo ahi blo bhi
    if m.size = 0 then []
    else
      (if alo < m.a ∧ blo < m.b then mblocksAux a b fuel alo m.a blo m.b else [])
      ++ [m]
      ++ (if m.a + m.size < ahi ∧ m.b + m.size < bhi then
            mblocksAux a b fuel (m.a + m.size) ahi (m.b + m.size) bhi
          else [])

/-- The adjacent-block collapsing pass of `get_matching_blocks`, written as a
recursion over the block list with the running block `cur` as state (the
source folds with state `(i1, j1, k1)` and appends to `non_adjacent`). -/
def collapseAux : Block → List Block → List Block
  | cur, [] => if cur.size ≠ 0 then [cur] else []
  | cur, m :: rest =>
    if cur.a + cur.size = m.a ∧ cur.b + cur.size = m.b then
      collapseAux ⟨cur.a, cur.b, cur.size + m.size⟩ rest
    else
      (if cur.size ≠ 0 then [cur] else []) ++ collapseAux m rest

/-- `SequenceMatcher.get_matching_blocks()`: collect blocks over the full
windows, collapse adjacent blocks starting from the dummy `(0, 0, 0)`, and
append the sentinel `(len(a), len(b), 0)`. -/
def get_matching_blocks (a b : List α) : List Block :=
  collapseAux ⟨0, 0, 0⟩
      (mblocksAux a b (a.length + b.length) 0 a.length 0 b.length)
    ++ [⟨a.length, b.length, 0⟩]

/-- The opcode tags of `get_opcodes` (a closed sum in place of the string
tags `"replace" | "delete" | "insert" | "equal"`). -/
inductive Tag where
  | replace
  | delete
  | insert
  | equal
deriving DecidableEq, Repr

/-- One opcode `(tag, i1, i2, j1, j2)`. -/
structure Opcode where
  tag : Tag
  i1 : Nat
  i2 : Nat
  j1 : Nat
  j2 : Nat
deriving DecidableEq, Repr

/-- The body of the `get_opcodes` loop: walk the matching blocks threading
the current position `(i, j)`, emit the gap opcode (replace/delete/insert)
before each block and an `equal` opcode for each block of nonzero size. -/
def opcodesFromBlocks : Nat → Nat → List Block → List Opcode
  | _, _, [] => []
  | i, j, m :: rest =>
    (if i < m.a ∧ j < m.b then [⟨.replace, i, m.a, j, m.b⟩]
     else if i < m.a then [⟨.delete, i, m.a, j, m.b⟩]
     else if j < m.b then [⟨.insert, i, m.a, j, m.b⟩]
     else [])
    ++ (if m.size ≠ 0 then [⟨.equal, m.a, m.a + m.size, m.b, m.b + m.size⟩] else [])
    ++ opcodesFromBlocks (m.a + m.size) (m.b + m.size) rest

/-- `SequenceMatcher(None, a, b).get_opcodes()`. -/
def get_opcodes (a b : List α) : List Opcode :=
  opcodesFromBlocks 0 0 (get_matching_blocks a b)

/-! ## The comparison pipeline of the `COMPARE_PDF` worker branch -/

/-- The line-break characters of Python's `str.splitlines`. -/
def isLineBreakChar (c : Char) : Bool :=
  c ∈ ['\n', '\r', '\x0b', '\x0c', '\x1c', '\x1d', '\x1e', '\x85', ' ', ' ']

/-- `str.splitlines()` on a character list: a line is emitted at every line
break (`"\r\n"` counting as a single break); trailing content without a
final break forms the last line; no empty line is produced after a final
break. -/
def splitlinesAux : List Char → List Char → List (List Char)
  | [], acc => if acc.isEmpty then [] else [acc.reverse]
  | '\r' :: '\n' :: rest, acc => acc.reverse :: splitlinesAux rest []
  | c :: rest, acc =>
    if isLineBreakChar c then acc.reverse :: splitlinesAux rest []
    else splitlinesAux rest (c :: acc)

/-- `t.splitlines()`. -/
def splitlines (t : List Char) : List (List Char) :=
  splitlinesAux t []

/-- The whitespace characters of Python's `str.strip()` (the characters with
the Unicode whitespace property). -/
def isPySpace (c : Char) : Bool :=
  c ∈ [' ', '\t', '\n', '\r', '\x0b', '\x0c', '\x1c', '\x1d', '\x1e', '\x1f',
       '\x85', '\xa0', ' ', ' ', ' ', ' ', ' ',
       ' ', ' ', ' ', ' ', ' ', ' ', ' ',
       ' ', ' ', ' ', ' ', '　']

/-- `t.strip()`: drop leading and trailing whitespace. -/
def strip (t : List Char) : List Char :=
  ((t.dropWhile isPySpace).reverse.dropWhile isPySpace).reverse

/-- Python's newline join of a line list. -/
def joinLines (lines : List (List Char)) : List Char :=
  List.intercalate ['\n'] lines

/-- The Python slice `l[i:j]`. -/
def pySlice (l : List α) (i j : Nat) : List α :=
  (l.drop i).take (j - i)

/-- A change record's `"type"` field: `"add"` or `"remove"`. -/
inductive ChangeType where
  | add
  | remove
deriving DecidableEq, Repr

/-- One entry of the worker's `changes` list:
`{"page": …, "type": …, "text": …}`. -/
structure Change where
  page : Nat
  type : ChangeType
  text : List Char
deriving DecidableEq, Repr

/-- The per-opcode body of the line-diff loop (worker.py lines 920-935):
`replace` emits an (independently guarded) `remove` and `add`, `delete`
emits a `remove`, `insert` emits an `add`, `equal` emits nothing; each
guarded by the joined blob being non-empty after `.strip()`. -/
def changesOfOpcode (lines1 lines2 : List (List Char)) (pageNum : Nat)
    (op : Opcode) : List Change :=
  match op.tag with
  | .replace =>
    let oldBlob := joinLines (pySlice lines1 op.i1 op.i2)
    let newBlob := joinLines (pySlice lines2 op.j1 op.j2)
    (if strip oldBlob ≠ [] then [⟨pageNum, .remove, oldBlob⟩] else [])
      ++ (if strip newBlob ≠ [] then [⟨pageNum, .add, newBlob⟩] else [])
  | .delete =>
    let blob := joinLines (pySlice lines1 op.i1 op.i2)
    if strip blob ≠ [] then [⟨pageNum, .remove, blob⟩] else []
  | .insert =>
    let blob := joinLines (pySlice lines2 op.j1 op.j2)
    if strip blob ≠ [] then [⟨pageNum, .add, blob⟩] else []
  | .equal => []

/-- All changes of one page: the opcode loop over the aligned lines. -/
def pageChanges (pageNum : Nat) (lines1 lines2 : List (List Char)) : List Change :=
  ((get_opcodes lines1 lines2).map (changesOfOpcode lines1 lines2 pageNum)).flatten

/-- The line-diff stage (worker.py lines 912-935) over the per-page text
lists: `t1 = texts1[i] if i < len(texts1) else ""`,
`lines1 = t1.splitlines() if t1 else []`, page numbers are `i + 1`. -/
def line_diff_changes (texts1 texts2 : List (List Char)) : List Change :=
  ((List.range (max texts1.length texts2.length)).map (fun i =>
    let t1 := texts1.getD i []
    let t2 := texts2.getD i []
    let lines1 := if t1 = [] then [] else splitlines t1
    let lines2 := if t2 = [] then [] else splitlines t2
    pageChanges (i + 1) lines1 lines2)).flatten

/-- `str(n)`: the decimal key under which a page number serializes. -/
def natKey (n : Nat) : List Char :=
  Nat.toDigits 10 n

/-- `d[p] = d.get(p, 0) + 1` on an insertion-ordered dictionary. -/
def bumpKey (m : List (List Char × Nat)) (k : List Char) : List (List Char × Nat) :=
  if m.any (fun p => p.1 = k) then
    m.map (fun p => if p.1 = k then (p.1, p.2 + 1) else p)
  else m ++ [(k, 1)]

/-- `d.get(k, 0)` on an insertion-ordered dictionary. -/
def lookupCount (m : List (List Char × Nat)) (k : List Char) : Nat :=
  ((m.find? (fun p => p.1 = k)).map Prod.snd).getD 0

/-- The report's `summary` object. -/
structure Summary where
  total : Nat
  by_page : List (List Char × Nat)
deriving DecidableEq, Repr

/-- The report object (worker.py lines 937-943): `changes` plus the derived
summary; both `report.json` and `report.txt` are serializations of it. -/
structure Report where
  changes : List Change
  summary : Summary
deriving DecidableEq, Repr

/-- The report builder (worker.py lines 937-943):
`summary.total = len(changes)` and `by_page[str(c["page"])] += 1` per
change, in order. -/
def build_report (changes : List Change) : Report :=
  ⟨changes, ⟨changes.length, changes.foldl (fun m c => bumpKey m (natKey c.page)) []⟩⟩

/-- A word token as the extraction collaborator returns it: its text and its
bounding box.  The engine never computes on the box (it only copies it into
highlight lists), so the box type is an arbitrary parameter `β`. -/
structure Word (α β : Type) where
  text : α
  bbox : β
deriving DecidableEq, Repr

/-- One extracted page: `page.extract_text() or ""` and
`page.extract_words() or []`. -/
structure RawPage (β : Type) where
  text : List Char
  words : List (Word (List Char) β)

/-- `extract_text_per_page` (worker.py lines 900-902):
`(page.extract_text() or "").strip()` per page. -/
def extract_text_per_page (doc : List (RawPage β)) : List (List Char) :=
  doc.map (fun p => strip p.text)

/-- Per-page highlight lists: the `{"red": [...], "green": [...]}` dict. -/
structure PageHighlights (β : Type) where
  red : List β
  green : List β
deriving DecidableEq, Repr

/-- The word-diff of one page (worker.py lines 1002-1015): align the word
texts (`texts_left`/`texts_right`), then collect the bboxes of the left
indices of `delete`/`replace` opcodes and of the right indices of
`insert`/`replace` opcodes.  `for k in range(i1, i2): words_left[k]`
becomes the slice `words_left[i1:i2]`. -/
def wordDiffPage {β : Type} (wl wr : List (Word α β)) : List β × List β :=
  let ops := get_opcodes (wl.map Word.text) (wr.map Word.text)
  (((ops.map (fun op =>
      if (op.tag = .delete ∨ op.tag = .replace) ∧ op.i1 < op.i2 then
        (pySlice wl op.i1 op.i2).map Word.bbox
      else [])).flatten),
   ((ops.map (fun op =>
      if (op.tag = .insert ∨ op.tag = .replace) ∧ op.j1 < op.j2 then
        (pySlice wr op.j1 op.j2).map Word.bbox
      else [])).flatten))

/-- The word-diff stage (worker.py lines 993-1015): over page indices
`0 … max_pages - 1` (pages absent on one side contribute `[]` words), fill
`left_highlights[i].red` and `right_highlights[i].green`. -/
def word_diff {β : Type} (d1 d2 : List (RawPage β)) :
    List (PageHighlights β) × List (PageHighlights β) :=
  let pages := (List.range (max d1.length d2.length)).map (fun i =>
    let wl := ((d1.get? i).map RawPage.words).getD []
    let wr := ((d2.get? i).map RawPage.words).getD []
    wordDiffPage wl wr)
  (pages.map (fun pr => ⟨pr.1, []⟩), pages.map (fun pr => ⟨[], pr.2⟩))

/-- Modelled from the spec: the typed error kind of §7.  The worker has no
typed error class; it lets the extraction exception propagate to the
job-level handler (worker.py lines 1204-1206), which marks the job failed
with the message and produces no output.  The spec names this outcome
`ExtractionFailed`. -/
inductive CompareError where
  | extractionFailed (msg : List Char)
deriving DecidableEq

/-- The terminal artifact of a successful comparison: the report and the two
per-page highlight maps handed to the rendering/packaging collaborators. -/
structure ComparisonArtifacts (β : Type) where
  report : Report
  leftHighlights : List (PageHighlights β)
  rightHighlights : List (PageHighlights β)

/-- The comparison orchestration (worker.py lines 908-1018): extraction of
both documents first (a failure of either aborts the whole job before any
artifact is produced), then the line-diff, report and word-diff stages.
The extraction collaborator is external; its outcome is passed in as an
`Except`. -/
def compare_job {β : Type} (ext1 ext2 : Except (List Char) (List (RawPage β))) :
    Except CompareError (ComparisonArtifacts β) :=
  match ext1, ext2 with
  | .error m, _ => .error (.extractionFailed m)
  | .ok _, .error m => .error (.extractionFailed m)
  | .ok d1, .ok d2 =>
    let changes := line_diff_changes (extract_text_per_page d1) (extract_text_per_page d2)
    let wd := word_diff d1 d2
    .ok ⟨build_report changes, wd.1, wd.2⟩

/-! ## Spec-side definitions

The following definitions are written from the specification's words, not
from the source; they exist to be compared with the embedded code. -/

/-- `a[p:p+k] = b[q:q+k]` with every compared index in range. -/
def blockAt (a b : List α) (p q k : Nat) : Bool :=
  (List.range k).all (fun t =>
    (a.get? (p + t)).isSome && decide (a.get? (p + t) = b.get? (q + t)))

/-- A matching block of length `k` at `(p, q)` lying inside the window
`[alo, ahi) × [blo, bhi)`. -/
def isBlockIn (a b : List α) (alo ahi blo bhi p q k : Nat) : Bool :=
  decide (alo ≤ p) && decide (p + k ≤ ahi) && decide (blo ≤ q)
    && decide (q + k ≤ bhi) && blockAt a b p q k

/-- Whether the window contains a matching block of length `k`. -/
def existsBlockOfLen (a b : List α) (alo ahi blo bhi k : Nat) : Bool :=
  (List.range' alo (ahi - alo)).any (fun p =>
    (List.range' blo (bhi - blo)).any (fun q => isBlockIn a b alo ahi blo bhi p q k))

/-- The length of the longest matching block in the window (`0` if none). -/
def maxBlockLen (a b : List α) (alo ahi blo bhi : Nat) : Nat :=
  ((List.range ((ahi - alo) + 1)).filter
    (fun k => decide (k ≠ 0) && existsBlockOfLen a b alo ahi blo bhi k)).foldr max 0

/-- The specification's block choice (§4.1): the longest contiguous matching
block of the window; ties in length broken first by the earliest start in
the left sequence, then by the earliest start in the right sequence.  When
no block of length ≥ 1 exists the degenerate `(alo, blo, 0)` is returned. -/
def bestBlockSpec (a b : List α) (alo ahi blo bhi : Nat) : Block :=
  let K := maxBlockLen a b alo ahi blo bhi
  if K = 0 then ⟨alo, blo, 0⟩
  else
    let p := (((List.range' alo (ahi - alo)).filter (fun p =>
        (List.range' blo (bhi - blo)).any (fun q =>
          isBlockIn a b alo ahi blo bhi p q K))).headD alo)
    let q := (((List.range' blo (bhi - blo)).filter (fun q =>
        isBlockIn a b alo ahi blo bhi p q K)).headD blo)
    ⟨p, q, K⟩

/-- The specification's alignment recursion (§4.1): choose the best block,
emit `Equal` for it and recurse on the windows before and after it; in a
window with no matching block emit a single `Replace` (or `Delete`/`Insert`
when one side is empty, nothing when both are).  `fuel` bounds the recursion
depth exactly as in `mblocksAux`. -/
def alignSpecAux (a b : List α) : Nat → Nat → Nat → Nat → Nat → List Opcode
  | 0, _, _, _, _ => []
  | fuel + 1, alo, ahi, blo, bhi =>
    let m := bestBlockSpec a b alo ahi blo bhi
    if m.size = 0 then
      if alo < ahi ∧ blo < bhi then [⟨.replace, alo, ahi, blo, bhi⟩]
      else if alo < ahi then [⟨.delete, alo, ahi, blo, bhi⟩]
      else if blo < bhi then [⟨.insert, alo, ahi, blo, bhi⟩]
      else []
    else
      alignSpecAux a b fuel alo m.a blo m.b
        ++ [⟨.equal, m.a, m.a + m.size, m.b, m.b + m.size⟩]
        ++ alignSpecAux a b fuel (m.a + m.size) ahi (m.b + m.size) bhi

/-- The specification's Sequence Aligner over two full sequences. -/
def align_spec (a b : List α) : List Opcode :=
  alignSpecAux a b (a.length + b.length) 0 a.length 0 b.length

/-- The specification's Line Diff Stage (§4.2), written from its words: for
each page index `p` up to `max(len A, len B) - 1`, split each side's page
text on line breaks (absent pages giving the empty list), align, and emit
per opcode the guarded `Remove`/`Add` changes with 1-based page `p + 1`. -/
def line_diff_spec (texts1 texts2 : List (List Char)) : List Change :=
  ((List.range (max texts1.length texts2.length)).map (fun p =>
    let linesA := splitlines (texts1.getD p [])
    let linesB := splitlines (texts2.getD p [])
    ((get_opcodes linesA linesB).map (fun op =>
      match op.tag with
      | .replace =>
        (if strip (joinLines (pySlice linesA op.i1 op.i2)) ≠ [] then
          [⟨p + 1, .remove, joinLines (pySlice linesA op.i1 op.i2)⟩] else [])
          ++ (if strip (joinLines (pySlice linesB op.j1 op.j2)) ≠ [] then
            [⟨p + 1, .add, joinLines (pySlice linesB op.j1 op.j2)⟩] else [])
      | .delete =>
        if strip (joinLines (pySlice linesA op.i1 op.i2)) ≠ [] then
          [⟨p + 1, .remove, joinLines (pySlice linesA op.i1 op.i2)⟩] else []
      | .insert =>
        if strip (joinLines (pySlice linesB op.j1 op.j2)) ≠ [] then
          [⟨p + 1, .add, joinLines (pySlice linesB op.j1 op.j2)⟩] else []
      | .equal => [])).flatten)).flatten

/-- The specification's Word Diff Stage for one page (§4.3), from its words:
align the word texts (bounding boxes are not part of the equality key); for
every index in a left-side range covered by `Delete` or `Replace` take that
word's bbox into the red list, for every index in a right-side range covered
by `Insert` or `Replace` take that word's bbox into the green list; `Equal`
ranges contribute nothing. -/
def word_highlights_spec {β : Type} (wl wr : List (Word α β)) : List β × List β :=
  let ops := get_opcodes (wl.map Word.text) (wr.map Word.text)
  (((ops.map (fun op =>
      match op.tag with
      | .delete | .replace =>
        (List.range' op.i1 (op.i2 - op.i1)).filterMap (fun k => (wl.get? k).map Word.bbox)
      | _ => [])).flatten),
   ((ops.map (fun op =>
      match op.tag with
      | .insert | .replace =>
        (List.range' op.j1 (op.j2 - op.j1)).filterMap (fun k => (wr.get? k).map Word.bbox)
      | _ => [])).flatten))

/-! ## Proof-support definitions -/

/-- The half-open ranges `rs` tile `[lo, hi)` in order: the first range
starts at `lo`, each range is non-decreasing and abuts the next, the last
ends at `hi`.  (No gaps, no overlaps.) -/
def RangesChain : Nat → Nat → List (Nat × Nat) → Prop
  | lo, hi, [] => lo = hi
  | lo, hi, r :: rs => r.1 = lo ∧ r.1 ≤ r.2 ∧ RangesChain r.2 hi rs

/-- The blocks lie inside the window `[lo, hi) × [jlo, jhi)`, in order and
pairwise disjoint: each block starts at or after the running position and
ends inside the window. -/
def BlocksChained : Nat → Nat → Nat → Nat → List Block → Prop
  | _, _, _, _, [] => True
  | lo, jlo, hi, jhi, m :: rest =>
    lo ≤ m.a ∧ jlo ≤ m.b ∧ m.a + m.size ≤ hi ∧ m.b + m.size ≤ jhi ∧
      BlocksChained (m.a + m.size) (m.b + m.size) hi jhi rest

/-- The final `(i, j)` position after walking a block list from `(i, j)`. -/
def blocksEndA (i : Nat) (bs : List Block) : Nat :=
  bs.foldl (fun _ m => m.a + m.size) i

/-- Right-hand analogue of `blocksEndA`. -/
def blocksEndB (j : Nat) (bs : List Block) : Nat :=
  bs.foldl (fun _ m => m.b + m.size) j

/-- Whether index `j` of `b` holds a value that survives the autojunk purge
(so that `j` appears in `b2j b (b[j])`). -/
def rareAt (b : List α) (j : Nat) : Bool :=
  match b.get? j with
  | some x => !(isPopular b x)
  | none => false

/-- The length of the longest common suffix of `a[alo…i]` and `b[blo…j]`
ending exactly at `(i, j)` (`0` when `a[i] ≠ b[j]` or a bound fails).  This
is the mathematical value of the `j2len` entries when no element is purged
by autojunk. -/
def suffixRun (a b : List α) (alo blo : Nat) : Nat → Nat → Nat
  | i, j =>
    if alo ≤ i ∧ blo ≤ j ∧ (a.get? i).isSome ∧ a.get? i = b.get? j then
      (if i = alo ∨ j = blo then 1 else suffixRun a b alo blo (i - 1) (j - 1) + 1)
    else 0
termination_by i _ => i
decreasing_by
  have : alo < i := by omega
  omega

/-- The diagonal `j2len` value of the self-comparison DP: the number of
consecutive autojunk-surviving positions of `b` ending at `j`, within
`[lo, hi)`. -/
def dchain (b : List α) (lo hi : Nat) : Nat → Nat
  | j =>
    if lo ≤ j ∧ j < hi ∧ rareAt b j then
      (if j = lo then 1 else dchain b lo hi (j - 1) + 1)
    else 0
termination_by j => j
decreasing_by
  have : lo < j := by omega
  omega

/-- Two texts differing only in leading and trailing whitespace: both are a
common core padded on each side by (possibly empty) all-whitespace runs. -/
def OuterWsEq (t t' : List Char) : Prop :=
  ∃ l r l' r' core,
    (∀ c ∈ l, isPySpace c) ∧ (∀ c ∈ r, isPySpace c) ∧
    (∀ c ∈ l', isPySpace c) ∧ (∀ c ∈ r', isPySpace c) ∧
    t = l ++ core ++ r ∧ t' = l' ++ core ++ r'

/-- Invariant of the `find_longest_match` DP after `n` rows: `j2len` values
are bounded by the row count and respect the `[blo, bhi)` column window, and
the best block lies inside the processed part of the window. -/
def DPBounds (alo blo bhi n : Nat) (s : DPState) : Prop :=
  (∀ j, s.j2len j ≤ n ∧ (s.j2len j = 0 ∨ (blo + s.j2len j ≤ j + 1 ∧ j < bhi)))
  ∧ alo ≤ s.best.a ∧ blo ≤ s.best.b
  ∧ s.best.a + s.best.size ≤ alo + n ∧ s.best.b + s.best.size ≤ bhi

/-- Invariant of the `find_longest_match` DP when comparing a sequence with
itself over the window `[lo, hi) × [lo, hi)`, after processing the rows
below `r`: the best block is on the diagonal and dominates every diagonal
chain value seen so far, and the stored `j2len` values are bounded by the
diagonal chains of both their column and the last processed row (the row
value at the diagonal being exact). -/
def SelfDPInv (a : List α) (lo hi r : Nat) (s : DPState) : Prop :=
  s.best.b = s.best.a ∧ lo ≤ s.best.a ∧ s.best.a + s.best.size ≤ r
  ∧ (∀ j, lo ≤ j → j < r → dchain a lo hi j ≤ s.best.size)
  ∧ (∀ j, s.j2len j ≤ dchain a lo hi j)
  ∧ (∀ j, s.j2len j ≤ (if r = lo then 0 else dchain a lo hi (r - 1)))
  ∧ (r = lo ∨ (lo < r ∧ s.j2len (r - 1) = dchain a lo hi (r - 1)))

/-- Two blocks are not adjacent: the second does not start exactly where the
first ends on both sides (the merge condition of `get_matching_blocks`'s
collapsing pass is false). -/
def NAdj (x y : Block) : Prop :=
  ¬(x.a + x.size = y.a ∧ x.b + x.size = y.b)

/-- The gap opcode emitted between the current position `(i, j)` and the
next block start `(i2, j2)`: `replace`, `delete`, `insert` or nothing. -/
def gapOp (i j i2 j2 : Nat) : List Opcode :=
  if i < i2 ∧ j < j2 then [⟨.replace, i, i2, j, j2⟩]
  else if i < i2 then [⟨.delete, i, i2, j, j2⟩]
  else if j < j2 then [⟨.insert, i, i2, j, j2⟩]
  else []

/-- The DP cells already processed by `find_longest_match` when it has
finished the rows below `r` and, within row `r`, the columns below `c`:
row-major processing order. -/
def ProcCell (alo blo bhi r c i j : Nat) : Prop :=
  alo ≤ i ∧ blo ≤ j ∧ j < bhi ∧ (i < r ∨ (i = r ∧ j < c))

/-- The meaning of the running best block of `find_longest_match` over the
processed cells: either no processed cell ends a nonempty match and the
best is the initial `(alo, blo, 0)`, or the best is the block of the
row-major-first processed cell whose suffix run attains the maximum. -/
def BestCellAt (a b : List α) (alo blo bhi r c : Nat) (m : Block) : Prop :=
  (m = ⟨alo, blo, 0⟩
    ∧ ∀ i j, ProcCell alo blo bhi r c i j → suffixRun a b alo blo i j = 0)
  ∨ (∃ i j, ProcCell alo blo bhi r c i j
      ∧ 0 < suffixRun a b alo blo i j
      ∧ m = ⟨i + 1 - suffixRun a b alo blo i j, j + 1 - suffixRun a b alo blo i j,
             suffixRun a b alo blo i j⟩
      ∧ (∀ i' j', ProcCell alo blo bhi r c i' j' →
          suffixRun a b alo blo i' j' ≤ suffixRun a b alo blo i j)
      ∧ (∀ i' j', ProcCell alo blo bhi r c i' j' →
          suffixRun a b alo blo i' j' = suffixRun a b alo blo i j →
          i < i' ∨ (i = i' ∧ j ≤ j')))

/-- The full invariant of the `find_longest_match` DP (no junk, no purged
element) after processing the rows below `r`: the stored `j2len` values are
the suffix-run lengths of the last processed row within the column window,
and the best block is the row-major-first maximal one. -/
def FlmInv (a b : List α) (alo blo bhi r : Nat) (s : DPState) : Prop :=
  (∀ j, s.j2len j
      = if blo ≤ j ∧ j < bhi ∧ alo < r then suffixRun a b alo blo (r - 1) j else 0)
  ∧ BestCellAt a b alo blo bhi r blo s.best

/-! ## Theorems -/

/-- Generic preservation of an invariant along a left fold. -/
theorem foldl_preserve {σ τ : Type} (P : σ → Prop) (f : σ → τ → σ) :
    ∀ (l : List τ) (s0 : σ), (∀ s x, x ∈ l → P s → P (f s x)) → P s0 →
      P (l.foldl f s0)
  | [], s0, _, h0 => h0
  | x :: l, s0, h, h0 =>
    foldl_preserve P f l (f s0 x) (fun s y hy => h s y (List.mem_cons_of_mem _ hy))
      (h s0 x (List.mem_cons_self _ _) h0)

theorem dpStep_fst (s : DPState) (i : Nat) (t : (Nat → Nat) × Block) (j j' : Nat) :
    (dpStep s i t j).1 j'
      = if j' = j then (if j = 0 then 0 else s.j2len (j - 1)) + 1 else t.1 j' :=
  rfl

theorem dpStep_snd (s : DPState) (i : Nat) (t : (Nat → Nat) × Block) (j : Nat) :
    (dpStep s i t j).2
      = if t.2.size < (if j = 0 then 0 else s.j2len (j - 1)) + 1 then
          Block.mk (i + 1 - ((if j = 0 then 0 else s.j2len (j - 1)) + 1))
            (j + 1 - ((if j = 0 then 0 else s.j2len (j - 1)) + 1))
            ((if j = 0 then 0 else s.j2len (j - 1)) + 1)
        else t.2 :=
  rfl

theorem dpRow_bounds (a b : List α) (alo blo bhi n : Nat) (s : DPState)
    (hs : DPBounds alo blo bhi n s) :
    DPBounds alo blo bhi (n + 1) (dpRow a b blo bhi s (alo + n)) := by
  obtain ⟨hj, hba, hbb, hbsa, hbsb⟩ := hs
  unfold dpRow
  cases hx : a.get? (alo + n) with
  | none =>
    dsimp only
    refine ⟨fun j => ⟨?_, (hj j).2⟩, hba, hbb, by omega, hbsb⟩
    exact Nat.le_succ_of_le (hj j).1
  | some x =>
    dsimp only
    have main := foldl_preserve
      (fun (t : (Nat → Nat) × Block) =>
        (∀ j', t.1 j' ≤ n + 1 ∧ (t.1 j' = 0 ∨ (blo + t.1 j' ≤ j' + 1 ∧ j' < bhi)))
        ∧ alo ≤ t.2.a ∧ blo ≤ t.2.b
        ∧ t.2.a + t.2.size ≤ alo + (n + 1) ∧ t.2.b + t.2.size ≤ bhi)
      (dpStep s (alo + n))
      ((b2j b x).filter (fun j => decide (blo ≤ j) && decide (j < bhi)))
      ((fun _ => 0), s.best)
      ?step ?init
    case step =>
      intro t j hjmem ht
      obtain ⟨ht1, hta, htb, htsa, htsb⟩ := ht
      have hjw : blo ≤ j ∧ j < bhi := by
        have := List.of_mem_filter hjmem
        simpa using this
      have hk1 : (if j = 0 then 0 else s.j2len (j - 1)) + 1 ≤ n + 1 := by
        have := (hj (j - 1)).1
        split <;> omega
      have hk2 : blo + ((if j = 0 then 0 else s.j2len (j - 1)) + 1) ≤ j + 1 := by
        rcases Nat.eq_zero_or_pos j with hz | hpos
        · subst hz
          have hblo : blo = 0 := Nat.le_zero.mp hjw.1
          simp [hblo]
        · have hne : ¬ (j = 0) := by omega
          simp only [if_neg hne]
          rcases (hj (j - 1)).2 with h0 | hbd
          · rw [h0]; omega
          · omega
      constructor
      · intro j'
        rw [dpStep_fst]
        by_cases hj' : j' = j
        · rw [if_pos hj']
          subst hj'
          exact ⟨hk1, Or.inr ⟨hk2, hjw.2⟩⟩
        · rw [if_neg hj']
          exact ht1 j'
      · rw [dpStep_snd]
        set k : Nat := (if j = 0 then 0 else s.j2len (j - 1)) + 1 with hkd
        have hkpos : 1 ≤ k := by rw [hkd]; omega
        split
        · next hlt =>
          refine ⟨?_, ?_, ?_, ?_⟩
          · show alo ≤ alo + n + 1 - k
            omega
          · show blo ≤ j + 1 - k
            omega
          · show alo + n + 1 - k + k ≤ alo + (n + 1)
            omega
          · show j + 1 - k + k ≤ bhi
            omega
        · exact ⟨hta, htb, by omega, htsb⟩
    case init =>
      refine ⟨fun j' => ⟨Nat.zero_le _, Or.inl rfl⟩, hba, hbb, ?_, hbsb⟩
      show s.best.a + s.best.size ≤ alo + (n + 1)
      omega
    exact ⟨main.1, main.2.1, main.2.2.1, main.2.2.2.1, main.2.2.2.2⟩

theorem flmDP_bounds (a b : List α) (alo blo bhi : Nat) (hbb : blo ≤ bhi) :
    ∀ n, DPBounds alo blo bhi n
      ((List.range' alo n).foldl (dpRow a b blo bhi) ⟨⟨alo, blo, 0⟩, fun _ => 0⟩) := by
  intro n
  induction n with
  | zero =>
    refine ⟨fun j => ⟨Nat.le_refl 0, Or.inl rfl⟩, Nat.le_refl alo, Nat.le_refl blo,
      Nat.le_refl _, ?_⟩
    show blo + 0 ≤ bhi
    omega
  | succ n ih =>
    rw [List.range'_1_concat, List.foldl_append]
    exact dpRow_bounds a b alo blo bhi n _ ih

theorem extendBack_bounds (a b : List α) (alo blo : Nat) :
    ∀ besti bestj bestsize, alo ≤ besti → blo ≤ bestj →
      alo ≤ (extendBack a b alo blo besti bestj bestsize).a ∧
      blo ≤ (extendBack a b alo blo besti bestj bestsize).b ∧
      (extendBack a b alo blo besti bestj bestsize).a
        + (extendBack a b alo blo besti bestj bestsize).size = besti + bestsize ∧
      (extendBack a b alo blo besti bestj bestsize).b
        + (extendBack a b alo blo besti bestj bestsize).size = bestj + bestsize := by
  intro besti
  induction besti with
  | zero =>
    intro bestj bestsize h1 h2
    exact ⟨h1, h2, rfl, rfl⟩
  | succ besti ih =>
    intro bestj bestsize h1 h2
    simp only [extendBack]
    split
    · next h =>
      have := ih (bestj - 1) (bestsize + 1) (by omega) (by omega)
      refine ⟨this.1, this.2.1, ?_, ?_⟩ <;> omega
    · exact ⟨h1, h2, rfl, rfl⟩

theorem extendFwdAux_bounds (a b : List α) (ahi bhi besti bestj : Nat) :
    ∀ fuel bestsize, besti + bestsize ≤ ahi → bestj + bestsize ≤ bhi →
      bestsize ≤ extendFwdAux a b ahi bhi besti bestj fuel bestsize ∧
      besti + extendFwdAux a b ahi bhi besti bestj fuel bestsize ≤ ahi ∧
      bestj + extendFwdAux a b ahi bhi besti bestj fuel bestsize ≤ bhi := by
  intro fuel
  induction fuel with
  | zero =>
    intro bestsize h1 h2
    exact ⟨Nat.le_refl _, h1, h2⟩
  | succ fuel ih =>
    intro bestsize h1 h2
    simp only [extendFwdAux]
    split
    · next h =>
      have := ih (bestsize + 1) (by omega) (by omega)
      exact ⟨by omega, this.2.1, this.2.2⟩
    · exact ⟨Nat.le_refl _, h1, h2⟩

theorem extendFwd_bounds (a b : List α) (ahi bhi besti bestj bestsize : Nat)
    (h1 : besti + bestsize ≤ ahi) (h2 : bestj + bestsize ≤ bhi) :
    bestsize ≤ extendFwd a b ahi bhi besti bestj bestsize ∧
    besti + extendFwd a b ahi bhi besti bestj bestsize ≤ ahi ∧
    bestj + extendFwd a b ahi bhi besti bestj bestsize ≤ bhi :=
  extendFwdAux_bounds a b ahi bhi besti bestj (ahi - (besti + bestsize)) bestsize h1 h2

/-- `find_longest_match` returns a block inside the requested window. -/
theorem flm_bounds (a b : List α) (alo ahi blo bhi : Nat)
    (ha : alo ≤ ahi) (hb : blo ≤ bhi) :
    alo ≤ (find_longest_match a b alo ahi blo bhi).a ∧
    blo ≤ (find_longest_match a b alo ahi blo bhi).b ∧
    (find_longest_match a b alo ahi blo bhi).a
      + (find_longest_match a b alo ahi blo bhi).size ≤ ahi ∧
    (find_longest_match a b alo ahi blo bhi).b
      + (find_longest_match a b alo ahi blo bhi).size ≤ bhi := by
  have hdp : DPBounds alo blo bhi (ahi - alo) (flmDP a b alo ahi blo bhi) :=
    flmDP_bounds a b alo blo bhi hb (ahi - alo)
  set s := flmDP a b alo ahi blo bhi with hsdef
  obtain ⟨_, hba, hbb, hbsa, hbsb⟩ := hdp
  have hext := extendBack_bounds a b alo blo s.best.a s.best.b s.best.size hba hbb
  set m := extendBack a b alo blo s.best.a s.best.b s.best.size with hmdef
  have heq : find_longest_match a b alo ahi blo bhi
      = ⟨m.a, m.b, extendFwd a b ahi bhi m.a m.b m.size⟩ := rfl
  have hfa : m.a + m.size ≤ ahi := by omega
  have hfb : m.b + m.size ≤ bhi := by omega
  have hfwd := extendFwd_bounds a b ahi bhi m.a m.b m.size hfa hfb
  rw [heq]
  refine ⟨?_, ?_, ?_, ?_⟩
  · show alo ≤ m.a
    omega
  · show blo ≤ m.b
    omega
  · show m.a + extendFwd a b ahi bhi m.a m.b m.size ≤ ahi
    omega
  · show m.b + extendFwd a b ahi bhi m.a m.b m.size ≤ bhi
    omega

theorem BlocksChained_weaken {lo jlo hi jhi lo' jlo' : Nat} {bs : List Block}
    (h : BlocksChained lo jlo hi jhi bs) (h1 : lo' ≤ lo) (h2 : jlo' ≤ jlo) :
    BlocksChained lo' jlo' hi jhi bs := by
  cases bs with
  | nil => trivial
  | cons m rest =>
    obtain ⟨ha, hb, hc, hd, hrest⟩ := h
    exact ⟨Nat.le_trans h1 ha, Nat.le_trans h2 hb, hc, hd, hrest⟩

theorem BlocksChained_append :
    ∀ (l1 l2 : List Block) (lo jlo mid jmid hi jhi : Nat),
      BlocksChained lo jlo mid jmid l1 → BlocksChained mid jmid hi jhi l2 →
      lo ≤ mid → jlo ≤ jmid → mid ≤ hi → jmid ≤ jhi →
      BlocksChained lo jlo hi jhi (l1 ++ l2) := by
  intro l1
  induction l1 with
  | nil =>
    intro l2 lo jlo mid jmid hi jhi _ h2 hm hj _ _
    exact BlocksChained_weaken h2 hm hj
  | cons m l1' ih =>
    intro l2 lo jlo mid jmid hi jhi h1 h2 hm hj hmh hjh
    obtain ⟨ha, hb, hc, hd, hrest⟩ := h1
    exact ⟨ha, hb, Nat.le_trans hc hmh, Nat.le_trans hd hjh,
      ih l2 (m.a + m.size) (m.b + m.size) mid jmid hi jhi hrest h2 hc hd hmh hjh⟩

theorem mblocksAux_chained (a b : List α) :
    ∀ (fuel alo ahi blo bhi : Nat), alo ≤ ahi → blo ≤ bhi →
      BlocksChained alo blo ahi bhi (mblocksAux a b fuel alo ahi blo bhi) := by
  intro fuel
  induction fuel with
  | zero => intro alo ahi blo bhi _ _; trivial
  | succ fuel ih =>
    intro alo ahi blo bhi ha hb
    rw [mblocksAux]
    split
    · trivial
    · next hsz =>
      obtain ⟨h1, h2, h3, h4⟩ := flm_bounds a b alo ahi blo bhi ha hb
      set m := find_longest_match a b alo ahi blo bhi with hmdef
      have hL : BlocksChained alo blo m.a m.b
          (if alo < m.a ∧ blo < m.b then mblocksAux a b fuel alo m.a blo m.b else []) := by
        split
        · exact ih alo m.a blo m.b h1 h2
        · trivial
      have hR : BlocksChained (m.a + m.size) (m.b + m.size) ahi bhi
          (if m.a + m.size < ahi ∧ m.b + m.size < bhi then
            mblocksAux a b fuel (m.a + m.size) ahi (m.b + m.size) bhi
          else []) := by
        split
        · next hc => exact ih _ _ _ _ (Nat.le_of_lt hc.1) (Nat.le_of_lt hc.2)
        · trivial
      have hM : BlocksChained m.a m.b (m.a + m.size) (m.b + m.size) [m] :=
        ⟨Nat.le_refl _, Nat.le_refl _, Nat.le_refl _, Nat.le_refl _, trivial⟩
      have hLM : BlocksChained alo blo (m.a + m.size) (m.b + m.size)
          ((if alo < m.a ∧ blo < m.b then mblocksAux a b fuel alo m.a blo m.b else [])
            ++ [m]) :=
        BlocksChained_append _ _ alo blo m.a m.b (m.a + m.size) (m.b + m.size)
          hL hM h1 h2 (Nat.le_add_right _ _) (Nat.le_add_right _ _)
      exact BlocksChained_append _ _ alo blo (m.a + m.size) (m.b + m.size) ahi bhi
        hLM hR (by omega) (by omega) h3 h4

theorem collapseAux_chained (hi jhi : Nat) :
    ∀ (bs : List Block) (cur : Block),
      cur.a + cur.size ≤ hi → cur.b + cur.size ≤ jhi →
      BlocksChained (cur.a + cur.size) (cur.b + cur.size) hi jhi bs →
      BlocksChained cur.a cur.b hi jhi (collapseAux cur bs) := by
  intro bs
  induction bs with
  | nil =>
    intro cur h1 h2 _
    rw [collapseAux]
    split
    · exact ⟨Nat.le_refl _, Nat.le_refl _, h1, h2, trivial⟩
    · trivial
  | cons m rest ih =>
    intro cur h1 h2 hch
    obtain ⟨hm1, hm2, hm3, hm4, hrest⟩ := hch
    rw [collapseAux]
    split
    · next hadj =>
      have e1 : cur.a + (cur.size + m.size) = m.a + m.size := by omega
      have e2 : cur.b + (cur.size + m.size) = m.b + m.size := by omega
      have := ih ⟨cur.a, cur.b, cur.size + m.size⟩
        (by show cur.a + (cur.size + m.size) ≤ hi; omega)
        (by show cur.b + (cur.size + m.size) ≤ jhi; omega)
        (by show BlocksChained (cur.a + (cur.size + m.size))
              (cur.b + (cur.size + m.size)) hi jhi rest
            rw [e1, e2]; exact hrest)
      exact this
    · next hadj =>
      have hmrest := ih m hm3 hm4 hrest
      split
      · exact ⟨Nat.le_refl _, Nat.le_refl _, by omega, by omega,
          BlocksChained_weaken hmrest hm1 hm2⟩
      · next hsz =>
        have hz : cur.size = 0 := by
          by_contra hne
          exact hsz hne
        exact BlocksChained_weaken hmrest (by omega) (by omega)

theorem blocksEndA_cons (i : Nat) (m : Block) (rest : List Block) :
    blocksEndA i (m :: rest) = blocksEndA (m.a + m.size) rest := rfl

theorem blocksEndB_cons (j : Nat) (m : Block) (rest : List Block) :
    blocksEndB j (m :: rest) = blocksEndB (m.b + m.size) rest := rfl

theorem blocksEndA_ge :
    ∀ (bs : List Block) (i j hi jhi : Nat), BlocksChained i j hi jhi bs →
      i ≤ blocksEndA i bs := by
  intro bs
  induction bs with
  | nil => intro i j hi jhi _; exact Nat.le_refl _
  | cons m rest ih =>
    intro i j hi jhi hch
    obtain ⟨h1, _, _, _, hrest⟩ := hch
    rw [blocksEndA_cons]
    exact Nat.le_trans (by omega) (ih (m.a + m.size) (m.b + m.size) hi jhi hrest)

theorem blocksEndB_ge :
    ∀ (bs : List Block) (i j hi jhi : Nat), BlocksChained i j hi jhi bs →
      j ≤ blocksEndB j bs := by
  intro bs
  induction bs with
  | nil => intro i j hi jhi _; exact Nat.le_refl _
  | cons m rest ih =>
    intro i j hi jhi hch
    obtain ⟨_, h2, _, _, hrest⟩ := hch
    rw [blocksEndB_cons]
    exact Nat.le_trans (by omega) (ih (m.a + m.size) (m.b + m.size) hi jhi hrest)

theorem pySlice_nil_of_eq (l : List α) (i : Nat) : pySlice l i i = [] := by
  simp [pySlice]

theorem pySlice_concat (l : List α) (i k1 k2 : Nat) (h1 : i ≤ k1) (h2 : k1 ≤ k2) :
    pySlice l i k1 ++ pySlice l k1 k2 = pySlice l i k2 := by
  unfold pySlice
  rw [show k2 - i = (k1 - i) + (k2 - k1) by omega, List.take_add]
  congr 1
  rw [List.drop_drop]
  congr 2
  omega

theorem pySlice_full (l : List α) : pySlice l 0 l.length = l := by
  simp [pySlice]

theorem gapOps_join_left (a : List α) (i j ai bj : Nat) (h1 : i ≤ ai) :
    ((if i < ai ∧ j < bj then [Opcode.mk .replace i ai j bj]
       else if i < ai then [Opcode.mk .delete i ai j bj]
       else if j < bj then [Opcode.mk .insert i ai j bj]
       else []).map (fun op => pySlice a op.i1 op.i2)).flatten = pySlice a i ai := by
  split_ifs <;> simp
  next h1' h2' h3' =>
    have : i = ai := by omega
    subst this
    exact pySlice_nil_of_eq a i

theorem gapOps_join_right (b : List α) (i j ai bj : Nat) (h2 : j ≤ bj) :
    ((if i < ai ∧ j < bj then [Opcode.mk .replace i ai j bj]
       else if i < ai then [Opcode.mk .delete i ai j bj]
       else if j < bj then [Opcode.mk .insert i ai j bj]
       else []).map (fun op => pySlice b op.j1 op.j2)).flatten = pySlice b j bj := by
  split_ifs <;> simp
  next h1' h2' h3' =>
    have : j = bj := by omega
    subst this
    exact pySlice_nil_of_eq b j

theorem opcodesFromBlocks_join_left (a : List α) (hi jhi : Nat) :
    ∀ (bs : List Block) (i j : Nat), BlocksChained i j hi jhi bs →
      ((opcodesFromBlocks i j bs).map (fun op => pySlice a op.i1 op.i2)).flatten
        = pySlice a i (blocksEndA i bs) := by
  intro bs
  induction bs with
  | nil =>
    intro i j _
    show ([] : List (List α)).flatten = pySlice a i (blocksEndA i [])
    simp [blocksEndA, pySlice]
  | cons m rest ih =>
    intro i j hch
    obtain ⟨h1, h2, h3, h4, hrest⟩ := hch
    have hEnd : m.a + m.size ≤ blocksEndA (m.a + m.size) rest :=
      blocksEndA_ge rest _ _ hi jhi hrest
    rw [opcodesFromBlocks, blocksEndA_cons]
    rw [List.map_append, List.map_append, List.flatten_append, List.flatten_append]
    rw [gapOps_join_left a i j m.a m.b h1]
    rw [ih (m.a + m.size) (m.b + m.size) hrest]
    have heq : ((if m.size ≠ 0 then
          [Opcode.mk .equal m.a (m.a + m.size) m.b (m.b + m.size)] else []).map
            (fun op => pySlice a op.i1 op.i2)).flatten
        = pySlice a m.a (m.a + m.size) := by
      split_ifs with hz
      · simp
      · simp at hz
        simp [hz]
        exact pySlice_nil_of_eq a m.a
    rw [heq, List.append_assoc,
      pySlice_concat a m.a (m.a + m.size) _ (Nat.le_add_right _ _) hEnd,
      pySlice_concat a i m.a _ h1 (by omega)]

theorem opcodesFromBlocks_join_right (b : List α) (hi jhi : Nat) :
    ∀ (bs : List Block) (i j : Nat), BlocksChained i j hi jhi bs →
      ((opcodesFromBlocks i j bs).map (fun op => pySlice b op.j1 op.j2)).flatten
        = pySlice b j (blocksEndB j bs) := by
  intro bs
  induction bs with
  | nil =>
    intro i j _
    show ([] : List (List α)).flatten = pySlice b j (blocksEndB j [])
    simp [blocksEndB, pySlice]
  | cons m rest ih =>
    intro i j hch
    obtain ⟨h1, h2, h3, h4, hrest⟩ := hch
    have hEnd : m.b + m.size ≤ blocksEndB (m.b + m.size) rest :=
      blocksEndB_ge rest _ _ hi jhi hrest
    rw [opcodesFromBlocks, blocksEndB_cons]
    rw [List.map_append, List.map_append, List.flatten_append, List.flatten_append]
    rw [gapOps_join_right b i j m.a m.b h2]
    rw [ih (m.a + m.size) (m.b + m.size) hrest]
    have heq : ((if m.size ≠ 0 then
          [Opcode.mk .equal m.a (m.a + m.size) m.b (m.b + m.size)] else []).map
            (fun op => pySlice b op.j1 op.j2)).flatten
        = pySlice b m.b (m.b + m.size) := by
      split_ifs with hz
      · simp
      · simp at hz
        simp [hz]
        exact pySlice_nil_of_eq b m.b
    rw [heq, List.append_assoc,
      pySlice_concat b m.b (m.b + m.size) _ (Nat.le_add_right _ _) hEnd,
      pySlice_concat b j m.b _ h2 (by omega)]

theorem RangesChain_append :
    ∀ (rs1 rs2 : List (Nat × Nat)) (lo mid hi : Nat),
      RangesChain lo mid rs1 → RangesChain mid hi rs2 →
      RangesChain lo hi (rs1 ++ rs2) := by
  intro rs1
  induction rs1 with
  | nil =>
    intro rs2 lo mid hi h1 h2
    have : lo = mid := h1
    subst this
    exact h2
  | cons r rs' ih =>
    intro rs2 lo mid hi h1 h2
    obtain ⟨hr1, hr2, hrest⟩ := h1
    exact ⟨hr1, hr2, ih rs2 r.2 mid hi hrest h2⟩

theorem gapOps_chain_left (i j ai bj : Nat) (h1 : i ≤ ai) :
    RangesChain i ai
      ((if i < ai ∧ j < bj then [Opcode.mk .replace i ai j bj]
        else if i < ai then [Opcode.mk .delete i ai j bj]
        else if j < bj then [Opcode.mk .insert i ai j bj]
        else []).map (fun op => (op.i1, op.i2))) := by
  split_ifs <;> first
    | exact ⟨rfl, h1, rfl⟩
    | (show i = ai; omega)

theorem gapOps_chain_right (i j ai bj : Nat) (h2 : j ≤ bj) :
    RangesChain j bj
      ((if i < ai ∧ j < bj then [Opcode.mk .replace i ai j bj]
        else if i < ai then [Opcode.mk .delete i ai j bj]
        else if j < bj then [Opcode.mk .insert i ai j bj]
        else []).map (fun op => (op.j1, op.j2))) := by
  split_ifs <;> first
    | exact ⟨rfl, h2, rfl⟩
    | (show j = bj; omega)

theorem opcodesFromBlocks_chain_left (hi jhi : Nat) :
    ∀ (bs : List Block) (i j : Nat), BlocksChained i j hi jhi bs →
      RangesChain i (blocksEndA i bs)
        ((opcodesFromBlocks i j bs).map (fun op => (op.i1, op.i2))) := by
  intro bs
  induction bs with
  | nil =>
    intro i j _
    show i = blocksEndA i []
    rfl
  | cons m rest ih =>
    intro i j hch
    obtain ⟨h1, h2, h3, h4, hrest⟩ := hch
    rw [opcodesFromBlocks, blocksEndA_cons, List.map_append, List.map_append]
    have hmid : RangesChain m.a (m.a + m.size)
        ((if m.size ≠ 0 then
            [Opcode.mk .equal m.a (m.a + m.size) m.b (m.b + m.size)] else []).map
          (fun op => (op.i1, op.i2))) := by
      split_ifs
      · exact ⟨rfl, Nat.le_add_right _ _, rfl⟩
      · show m.a = m.a + m.size
        omega
    exact RangesChain_append _ _ i (m.a + m.size) _
      (RangesChain_append _ _ i m.a (m.a + m.size)
        (gapOps_chain_left i j m.a m.b h1) hmid)
      (ih (m.a + m.size) (m.b + m.size) hrest)

theorem opcodesFromBlocks_chain_right (hi jhi : Nat) :
    ∀ (bs : List Block) (i j : Nat), BlocksChained i j hi jhi bs →
      RangesChain j (blocksEndB j bs)
        ((opcodesFromBlocks i j bs).map (fun op => (op.j1, op.j2))) := by
  intro bs
  induction bs with
  | nil =>
    intro i j _
    show j = blocksEndB j []
    rfl
  | cons m rest ih =>
    intro i j hch
    obtain ⟨h1, h2, h3, h4, hrest⟩ := hch
    rw [opcodesFromBlocks, blocksEndB_cons, List.map_append, List.map_append]
    have hmid : RangesChain m.b (m.b + m.size)
        ((if m.size ≠ 0 then
            [Opcode.mk .equal m.a (m.a + m.size) m.b (m.b + m.size)] else []).map
          (fun op => (op.j1, op.j2))) := by
      split_ifs
      · exact ⟨rfl, Nat.le_add_right _ _, rfl⟩
      · show m.b = m.b + m.size
        omega
    exact RangesChain_append _ _ j (m.b + m.size) _
      (RangesChain_append _ _ j m.b (m.b + m.size)
        (gapOps_chain_right i j m.a m.b h2) hmid)
      (ih (m.a + m.size) (m.b + m.size) hrest)

theorem get_matching_blocks_chained (a b : List α) :
    BlocksChained 0 0 a.length b.length (get_matching_blocks a b) := by
  unfold get_matching_blocks
  have hblocks := mblocksAux_chained a b (a.length + b.length) 0 a.length 0 b.length
    (Nat.zero_le _) (Nat.zero_le _)
  have hcoll := collapseAux_chained a.length b.length
    (mblocksAux a b (a.length + b.length) 0 a.length 0 b.length) ⟨0, 0, 0⟩
    (by show 0 + 0 ≤ a.length; omega) (by show 0 + 0 ≤ b.length; omega)
    (by show BlocksChained (0 + 0) (0 + 0) a.length b.length _; exact hblocks)
  have hsent : BlocksChained a.length b.length a.length b.length
      [⟨a.length, b.length, 0⟩] :=
    ⟨Nat.le_refl _, Nat.le_refl _, by show a.length + 0 ≤ a.length; omega,
      by show b.length + 0 ≤ b.length; omega, trivial⟩
  exact BlocksChained_append _ _ 0 0 a.length b.length a.length b.length
    hcoll hsent (Nat.zero_le _) (Nat.zero_le _) (Nat.le_refl _) (Nat.le_refl _)

theorem blocksEndA_append (i : Nat) (l1 l2 : List Block) :
    blocksEndA i (l1 ++ l2) = blocksEndA (blocksEndA i l1) l2 := by
  simp [blocksEndA, List.foldl_append]

theorem blocksEndB_append (j : Nat) (l1 l2 : List Block) :
    blocksEndB j (l1 ++ l2) = blocksEndB (blocksEndB j l1) l2 := by
  simp [blocksEndB, List.foldl_append]

theorem get_matching_blocks_endA (a b : List α) :
    blocksEndA 0 (get_matching_blocks a b) = a.length := by
  unfold get_matching_blocks
  rw [blocksEndA_append]
  show a.length + 0 = a.length
  omega

theorem get_matching_blocks_endB (a b : List α) :
    blocksEndB 0 (get_matching_blocks a b) = b.length := by
  unfold get_matching_blocks
  rw [blocksEndB_append]
  show b.length + 0 = b.length
  omega

/-- C1: for every pair of token sequences, the opcode list of the Sequence
Aligner covers both sequences completely with no gaps and no overlaps:
concatenating the slices `a[i1:i2]` of all opcodes in order reconstructs `a`
exactly, likewise `b[j1:j2]` reconstructs `b`, and the left (resp. right)
ranges tile `[0, len a)` (resp. `[0, len b)`) in order.  The line pass and
the word pass of every page call `get_opcodes` on their token lists, so this
holds independently for each of them. -/
theorem C1_sequence_aligner_coverage (a b : List α) :
    ((get_opcodes a b).map (fun op => pySlice a op.i1 op.i2)).flatten = a
    ∧ ((get_opcodes a b).map (fun op => pySlice b op.j1 op.j2)).flatten = b
    ∧ RangesChain 0 a.length ((get_opcodes a b).map (fun op => (op.i1, op.i2)))
    ∧ RangesChain 0 b.length ((get_opcodes a b).map (fun op => (op.j1, op.j2))) := by
  have hch := get_matching_blocks_chained a b
  refine ⟨?_, ?_, ?_, ?_⟩
  · rw [get_opcodes,
      opcodesFromBlocks_join_left a a.length b.length (get_matching_blocks a b) 0 0 hch,
      get_matching_blocks_endA, pySlice_full]
  · rw [get_opcodes,
      opcodesFromBlocks_join_right b a.length b.length (get_matching_blocks a b) 0 0 hch,
      get_matching_blocks_endB, pySlice_full]
  · have := opcodesFromBlocks_chain_left a.length b.length
      (get_matching_blocks a b) 0 0 hch
    rw [get_matching_blocks_endA] at this
    exact this
  · have := opcodesFromBlocks_chain_right a.length b.length
      (get_matching_blocks a b) 0 0 hch
    rw [get_matching_blocks_endB] at this
    exact this

theorem flmDP_nil_right (a : List α) (ahi : Nat) :
    (flmDP a [] 0 ahi 0 0).best = ⟨0, 0, 0⟩ := by
  unfold flmDP
  apply foldl_preserve (fun (s : DPState) => s.best = ⟨0, 0, 0⟩)
  · intro s i _ hs
    unfold dpRow
    cases hx : a.get? i with
    | none => exact hs
    | some x =>
      simp [b2j, indicesOf, isPopular, hs]
  · rfl

theorem flm_nil_right (a : List α) : find_longest_match a [] 0 a.length 0 0 = ⟨0, 0, 0⟩ := by
  have hEF : ∀ fuel, extendFwdAux a [] a.length 0 0 0 fuel 0 = 0 := by
    intro fuel
    cases fuel with
    | zero => rfl
    | succ n =>
      simp only [extendFwdAux]
      rw [if_neg (fun hc => absurd hc.2.1 (by omega))]
  have hEB : extendBack a [] 0 0 0 0 0 = (⟨0, 0, 0⟩ : Block) := rfl
  unfold find_longest_match extendFwd
  simp [flmDP_nil_right, hEB, hEF]

theorem flm_nil_left (b : List α) : find_longest_match [] b 0 0 0 b.length = ⟨0, 0, 0⟩ := by
  have hdp : (flmDP [] b 0 0 0 b.length).best = ⟨0, 0, 0⟩ := rfl
  have hEB : extendBack [] b 0 0 0 0 0 = (⟨0, 0, 0⟩ : Block) := rfl
  have hEF : extendFwdAux [] b 0 b.length 0 0 0 0 = 0 := rfl
  unfold find_longest_match extendFwd
  simp [hdp, hEB, hEF]

theorem get_opcodes_nil_right (a : List α) (ha : a ≠ []) :
    get_opcodes a ([] : List α) = [⟨.delete, 0, a.length, 0, 0⟩] := by
  obtain ⟨k, hk⟩ : ∃ k, a.length = k + 1 := by
    cases a with
    | nil => exact absurd rfl ha
    | cons x xs => exact ⟨xs.length, rfl⟩
  have hblocks : mblocksAux a [] (a.length + ([] : List α).length) 0 a.length 0
      ([] : List α).length = [] := by
    show mblocksAux a [] (a.length + 0) 0 a.length 0 0 = []
    rw [show a.length + 0 = k + 1 by omega, mblocksAux]
    rw [show find_longest_match a [] 0 a.length 0 0 = ⟨0, 0, 0⟩ from flm_nil_right a]
    rw [if_pos rfl]
  rw [get_opcodes, get_matching_blocks, hblocks]
  show opcodesFromBlocks 0 0 ([] ++ [⟨a.length, 0, 0⟩]) = _
  rw [List.nil_append, opcodesFromBlocks]
  dsimp only
  rw [if_neg (fun hc => absurd hc.2 (by omega)), if_pos (by omega),
    if_neg (by simp)]
  rfl

theorem get_opcodes_nil_left (b : List α) (hb : b ≠ []) :
    get_opcodes ([] : List α) b = [⟨.insert, 0, 0, 0, b.length⟩] := by
  obtain ⟨k, hk⟩ : ∃ k, b.length = k + 1 := by
    cases b with
    | nil => exact absurd rfl hb
    | cons x xs => exact ⟨xs.length, rfl⟩
  have hblocks : mblocksAux ([] : List α) b (([] : List α).length + b.length) 0
      ([] : List α).length 0 b.length = [] := by
    show mblocksAux [] b (0 + b.length) 0 0 0 b.length = []
    rw [show 0 + b.length = k + 1 by omega, mblocksAux]
    rw [show find_longest_match ([] : List α) b 0 0 0 b.length = ⟨0, 0, 0⟩ from
      flm_nil_left b]
    rw [if_pos rfl]
  rw [get_opcodes, get_matching_blocks, hblocks]
  show opcodesFromBlocks 0 0 ([] ++ [⟨0, b.length, 0⟩]) = _
  rw [List.nil_append, opcodesFromBlocks]
  dsimp only
  rw [if_neg (fun hc => absurd hc.1 (by omega)), if_neg (by omega),
    if_pos (by omega), if_neg (by simp)]
  rfl

/-- C7 counterexample: on two empty sequences the aligner returns the empty
opcode list, not "a single Equal opcode covering nothing" as the claim
states. -/
theorem C7_counterexample_empty_inputs :
    get_opcodes ([] : List Nat) ([] : List Nat) = []
    ∧ ([] : List Opcode) ≠ [⟨.equal, 0, 0, 0, 0⟩] :=
  ⟨rfl, by decide⟩

/-- C7 (amended): the Sequence Aligner is total over any two finite token
sequences: when only the left sequence is non-empty the result is a single
`delete` opcode covering it (all-Delete), when only the right sequence is
non-empty a single `insert` opcode covering it (all-Insert), and when both
sequences are empty the result is the empty opcode list (not a single
`Equal` opcode). -/
theorem C7_aligner_totality (a b : List α) :
    (a ≠ [] → get_opcodes a ([] : List α) = [⟨.delete, 0, a.length, 0, 0⟩])
    ∧ (b ≠ [] → get_opcodes ([] : List α) b = [⟨.insert, 0, 0, 0, b.length⟩])
    ∧ get_opcodes ([] : List α) ([] : List α) = [] :=
  ⟨get_opcodes_nil_right a, get_opcodes_nil_left b, rfl⟩

/-- Witness for C7: the amended statement instantiated at `[1]` and `[2]`. -/
theorem C7_aligner_totality_witness :
    get_opcodes [1] ([] : List Nat) = [⟨.delete, 0, 1, 0, 0⟩]
    ∧ get_opcodes ([] : List Nat) [2] = [⟨.insert, 0, 0, 0, 1⟩] :=
  ⟨(C7_aligner_totality [1] [2]).1 (by decide),
   (C7_aligner_totality [1] [2]).2.1 (by decide)⟩

theorem splitlines_nil : splitlines ([] : List Char) = [] := rfl

theorem if_nil_splitlines (t : List Char) :
    (if t = [] then [] else splitlines t) = splitlines t := by
  split
  · next h => rw [h]; rfl
  · rfl

/-- C3: the Line Diff Stage is exactly the per-page procedure of §4.2: for
every page index `p` below `max(len(docA.pages), len(docB.pages))`, split
each side's page text on line breaks (the empty list when the page is absent
on that side), align, and per opcode emit the guarded changes — `Replace`
giving an independent `Remove` and `Add`, `Delete` a `Remove`, `Insert` an
`Add`, `Equal` nothing, each only when the joined text is non-empty after
trimming, and each carrying the 1-based page number `p + 1`.  Stated as the
equality of the embedded stage with the stage written from the
specification's words. -/
theorem C3_line_diff_stage (texts1 texts2 : List (List Char)) :
    line_diff_changes texts1 texts2 = line_diff_spec texts1 texts2 := by
  unfold line_diff_changes line_diff_spec
  refine congrArg List.flatten (List.map_congr_left ?_)
  intro p _
  simp only [if_nil_splitlines]
  rfl

theorem filterMap_get_none {γ δ : Type} (f : γ → δ) (l : List γ)
    (hlen : l.length ≤ s0) :
    ∀ (m s : Nat), s0 ≤ s →
      (List.range' s m).filterMap (fun k => (l.get? k).map f) = [] := by
  intro m
  induction m with
  | zero => intro s _; rfl
  | succ m ihm =>
    intro s hs
    rw [List.range'_succ, List.filterMap_cons]
    have hnone : l.get? s = none := by
      rw [List.get?_eq_getElem?, List.getElem?_eq_none (by omega)]
    rw [hnone]
    exact ihm (s + 1) (by omega)

theorem slice_map_eq_filterMap {γ δ : Type} (f : γ → δ) :
    ∀ (n i1 : Nat) (l : List γ),
      (pySlice l i1 (i1 + n)).map f
        = (List.range' i1 n).filterMap (fun k => (l.get? k).map f) := by
  intro n
  induction n with
  | zero =>
    intro i1 l
    show ((l.drop i1).take (i1 - i1)).map f = _
    simp
  | succ n ih =>
    intro i1 l
    cases hx : l.get? i1 with
    | none =>
      have hlen : l.length ≤ i1 := by
        by_contra hlt
        rw [List.get?_eq_getElem? l i1, List.getElem?_eq_getElem (by omega)] at hx
        exact Option.noConfusion hx
      have hdrop : l.drop i1 = [] := List.drop_eq_nil_of_le hlen
      show ((l.drop i1).take (i1 + (n + 1) - i1)).map f = _
      rw [hdrop, filterMap_get_none f l hlen (n + 1) i1 (Nat.le_refl _)]
      simp
    | some x =>
      have hlt : i1 < l.length := by
        by_contra hge
        rw [List.get?_eq_getElem?, List.getElem?_eq_none (by omega)] at hx
        exact Option.noConfusion hx
      have hdrop : l.drop i1 = l[i1] :: l.drop (i1 + 1) :=
        List.drop_eq_getElem_cons hlt
      have hxval : l[i1] = x := by
        rw [List.get?_eq_getElem?, List.getElem?_eq_getElem hlt] at hx
        exact Option.some.inj hx
      show ((l.drop i1).take (i1 + (n + 1) - i1)).map f = _
      rw [hdrop, show i1 + (n + 1) - i1 = n + 1 by omega, List.take_succ_cons,
        List.map_cons, List.range'_succ, List.filterMap_cons, hx]
      simp only [Option.map_some']
      rw [hxval]
      congr 1
      have h2 := ih (i1 + 1) l
      unfold pySlice at h2
      rw [show i1 + 1 + n - (i1 + 1) = n by omega] at h2
      exact h2

theorem slice_bbox_eq {γ β : Type} (wl : List (Word γ β)) (i1 i2 : Nat) :
    (pySlice wl i1 i2).map Word.bbox
      = (List.range' i1 (i2 - i1)).filterMap (fun k => (wl.get? k).map Word.bbox) := by
  rcases Nat.le_total i1 i2 with h | h
  · have := slice_map_eq_filterMap (fun w : Word γ β => w.bbox) (i2 - i1) i1 wl
    rw [show i1 + (i2 - i1) = i2 by omega] at this
    exact this
  · have h0 : i2 - i1 = 0 := by omega
    rw [h0]
    show ((wl.drop i1).take (i2 - i1)).map Word.bbox = _
    rw [h0]
    simp

theorem wordDiffPage_eq_spec {β : Type} (wl wr : List (Word α β)) :
    wordDiffPage wl wr = word_highlights_spec wl wr := by
  unfold wordDiffPage word_highlights_spec
  have hleft : ∀ op : Opcode,
      (if (op.tag = .delete ∨ op.tag = .replace) ∧ op.i1 < op.i2 then
        (pySlice wl op.i1 op.i2).map Word.bbox
      else [])
      = (match op.tag with
        | .delete | .replace =>
          (List.range' op.i1 (op.i2 - op.i1)).filterMap
            (fun k => (wl.get? k).map Word.bbox)
        | _ => []) := by
    intro op
    cases htag : op.tag
    case replace =>
      by_cases hlt : op.i1 < op.i2
      · rw [if_pos ⟨Or.inr rfl, hlt⟩]
        exact slice_bbox_eq wl op.i1 op.i2
      · rw [if_neg (fun hc => hlt hc.2), show op.i2 - op.i1 = 0 by omega]
        rfl
    case delete =>
      by_cases hlt : op.i1 < op.i2
      · rw [if_pos ⟨Or.inl rfl, hlt⟩]
        exact slice_bbox_eq wl op.i1 op.i2
      · rw [if_neg (fun hc => hlt hc.2), show op.i2 - op.i1 = 0 by omega]
        rfl
    case insert =>
      rw [if_neg (fun hc => by rcases hc.1 with h | h <;> exact Tag.noConfusion h)]
    case equal =>
      rw [if_neg (fun hc => by rcases hc.1 with h | h <;> exact Tag.noConfusion h)]
  have hright : ∀ op : Opcode,
      (if (op.tag = .insert ∨ op.tag = .replace) ∧ op.j1 < op.j2 then
        (pySlice wr op.j1 op.j2).map Word.bbox
      else [])
      = (match op.tag with
        | .insert | .replace =>
          (List.range' op.j1 (op.j2 - op.j1)).filterMap
            (fun k => (wr.get? k).map Word.bbox)
        | _ => []) := by
    intro op
    cases htag : op.tag
    case replace =>
      by_cases hlt : op.j1 < op.j2
      · rw [if_pos ⟨Or.inr rfl, hlt⟩]
        exact slice_bbox_eq wr op.j1 op.j2
      · rw [if_neg (fun hc => hlt hc.2), show op.j2 - op.j1 = 0 by omega]
        rfl
    case insert =>
      by_cases hlt : op.j1 < op.j2
      · rw [if_pos ⟨Or.inl rfl, hlt⟩]
        exact slice_bbox_eq wr op.j1 op.j2
      · rw [if_neg (fun hc => hlt hc.2), show op.j2 - op.j1 = 0 by omega]
        rfl
    case delete =>
      rw [if_neg (fun hc => by rcases hc.1 with h | h <;> exact Tag.noConfusion h)]
    case equal =>
      rw [if_neg (fun hc => by rcases hc.1 with h | h <;> exact Tag.noConfusion h)]
  refine congrArg₂ Prod.mk ?_ ?_
  · exact congrArg List.flatten (List.map_congr_left (fun op _ => hleft op))
  · exact congrArg List.flatten (List.map_congr_left (fun op _ => hright op))

/-- C4: the Word Diff Stage compares word tokens by text string only — the
highlight lists equal the specification's description, which reads only the
aligned text tokens and copies each covered word's bbox: left indices of
`Delete`/`Replace` ranges go to the red list, right indices of
`Insert`/`Replace` ranges to the green list, `Equal` contributing nothing;
and on page text "hello world" vs "hello there", exactly "world"'s bbox is
collected on the left/red side, "there"'s bbox on the right/green side, and
"hello" contributes no rectangle. -/
theorem C4_word_diff_stage :
    (∀ {γ : Type} [DecidableEq γ] {β : Type} (wl wr : List (Word γ β)),
      wordDiffPage wl wr = word_highlights_spec wl wr)
    ∧ wordDiffPage
        [(⟨"hello", (0, 0, 10, 10)⟩ : Word String (Nat × Nat × Nat × Nat)),
         ⟨"world", (12, 0, 20, 10)⟩]
        [⟨"hello", (0, 0, 10, 10)⟩, ⟨"there", (12, 0, 22, 10)⟩]
      = ([(12, 0, 20, 10)], [(12, 0, 22, 10)]) :=
  ⟨fun wl wr => wordDiffPage_eq_spec wl wr, by decide⟩

theorem map_update_eq_of_not_mem (m : List (List Char × Nat)) (k : List Char)
    (h : ∀ q ∈ m, q.1 ≠ k) :
    m.map (fun p => if p.1 = k then (p.1, p.2 + 1) else p) = m :=
  (List.map_congr_left (fun p hp => if_neg (h p hp))).trans (List.map_id m)

theorem any_key_iff (m : List (List Char × Nat)) (k : List Char) :
    m.any (fun p => p.1 = k) = true ↔ ∃ p ∈ m, p.1 = k := by
  simp [List.any_eq_true]

theorem sum_bumpKey :
    ∀ (m : List (List Char × Nat)) (k : List Char), (m.map Prod.fst).Nodup →
      ((bumpKey m k).map Prod.snd).sum = (m.map Prod.snd).sum + 1 := by
  intro m
  induction m with
  | nil =>
    intro k _
    simp [bumpKey]
  | cons p m' ih =>
    intro k hnd
    have hnd' : (m'.map Prod.fst).Nodup := (List.nodup_cons.mp hnd).2
    have hpnotin : p.1 ∉ m'.map Prod.fst := (List.nodup_cons.mp hnd).1
    unfold bumpKey
    by_cases hpk : p.1 = k
    · rw [if_pos (by simp [hpk])]
      have hm' : m'.map (fun q => if q.1 = k then (q.1, q.2 + 1) else q) = m' := by
        apply map_update_eq_of_not_mem
        intro q hq he
        exact hpnotin (hpk ▸ he ▸ List.mem_map_of_mem Prod.fst hq)
      rw [List.map_cons, if_pos hpk, hm', List.map_cons, List.map_cons]
      simp [List.sum_cons]
      omega
    · have hstep : ((p :: m').any (fun q => decide (q.1 = k)))
          = (m'.any (fun q => decide (q.1 = k))) := by
        simp [hpk]
      by_cases hany : m'.any (fun q => decide (q.1 = k)) = true
      · rw [if_pos (by simp [hpk, hany])]
        have hb : bumpKey m' k
            = m'.map (fun q => if q.1 = k then (q.1, q.2 + 1) else q) := by
          unfold bumpKey
          rw [if_pos hany]
        have hsum := ih k hnd'
        rw [hb] at hsum
        rw [List.map_cons, if_neg hpk, List.map_cons, List.map_cons]
        simp [List.sum_cons] at hsum ⊢
        omega
      · rw [if_neg (by
          intro hc
          rcases (any_key_iff (p :: m') k).mp (by simpa using hc) with ⟨q, hq, hqk⟩
          rcases List.mem_cons.mp hq with hq1 | hq2
          · exact hpk (hq1 ▸ hqk)
          · exact hany ((any_key_iff m' k).mpr ⟨q, hq2, hqk⟩))]
        simp [List.sum_append]
        omega

theorem lookup_bumpKey (m : List (List Char × Nat)) (k0 k : List Char) :
    lookupCount (bumpKey m k0) k
      = lookupCount m k + (if k = k0 then 1 else 0) := by
  unfold bumpKey lookupCount
  by_cases hany : (m.any (fun p => decide (p.1 = k0))) = true
  · rw [if_pos hany]
    rw [List.find?_map]
    have hpred : (fun q : List Char × Nat => decide (q.1 = k))
        ∘ (fun p : List Char × Nat => if p.1 = k0 then (p.1, p.2 + 1) else p)
        = fun p : List Char × Nat => decide (p.1 = k) := by
      funext p
      show decide ((if p.1 = k0 then (p.1, p.2 + 1) else p).1 = k) = _
      split <;> rfl
    rw [hpred]
    by_cases hk : k = k0
    · subst hk
      have hsome : (m.find? (fun p => decide (p.1 = k))).isSome := by
        rw [List.find?_isSome]
        rcases (any_key_iff m k).mp hany with ⟨p, hp, hpk⟩
        exact ⟨p, hp, by simpa using hpk⟩
      rcases Option.isSome_iff_exists.mp hsome with ⟨e, he⟩
      have hek : e.1 = k := by simpa using List.find?_some he
      rw [he]
      simp [if_pos hek]
    · rw [if_neg hk]
      cases he : m.find? (fun p => decide (p.1 = k)) with
      | none => simp
      | some e =>
        have hek : e.1 = k := by simpa using List.find?_some he
        simp [show ¬ (e.1 = k0) from fun h => hk (hek ▸ h)]
  · rw [if_neg hany]
    rw [List.find?_append]
    have hnone : m.find? (fun p => decide (p.1 = k0)) = none := by
      rw [List.find?_eq_none]
      intro x hx hpx
      exact hany ((any_key_iff m k0).mpr ⟨x, hx, by simpa using hpx⟩)
    by_cases hk : k = k0
    · subst hk
      rw [hnone]
      simp
    · cases he : m.find? (fun p => decide (p.1 = k)) with
      | none =>
        rw [List.find?_cons_of_neg _ (by simp; exact fun hh => hk hh.symm)]
        simp [hk]
      | some e =>
        simp [hk]

theorem map_fst_bumpKey (m : List (List Char × Nat)) (k : List Char) :
    (bumpKey m k).map Prod.fst
      = if (m.any (fun p => decide (p.1 = k))) = true then m.map Prod.fst
        else m.map Prod.fst ++ [k] := by
  unfold bumpKey
  split
  · next h =>
    rw [List.map_map]
    apply List.map_congr_left
    intro p _
    show (if p.1 = k then (p.1, p.2 + 1) else p).1 = p.1
    split <;> rfl
  · next h =>
    simp

theorem nodup_bumpKey (m : List (List Char × Nat)) (k : List Char)
    (h : (m.map Prod.fst).Nodup) : ((bumpKey m k).map Prod.fst).Nodup := by
  rw [map_fst_bumpKey]
  split
  · exact h
  · next hany =>
    have hk : k ∉ m.map Prod.fst := by
      intro hmem
      rcases List.mem_map.mp hmem with ⟨p, hp, hpk⟩
      exact hany ((any_key_iff m k).mpr ⟨p, hp, hpk⟩)
    simp [List.nodup_append, h, hk]

theorem report_fold_inv :
    ∀ (cs : List Change) (m : List (List Char × Nat)),
      (m.map Prod.fst).Nodup →
      ((cs.foldl (fun acc c => bumpKey acc (natKey c.page)) m).map Prod.fst).Nodup
      ∧ ((cs.foldl (fun acc c => bumpKey acc (natKey c.page)) m).map Prod.snd).sum
          = (m.map Prod.snd).sum + cs.length
      ∧ ∀ k, lookupCount (cs.foldl (fun acc c => bumpKey acc (natKey c.page)) m) k
          = lookupCount m k + (cs.filter (fun c => natKey c.page = k)).length := by
  intro cs
  induction cs with
  | nil =>
    intro m hnd
    exact ⟨hnd, by simp, fun k => by simp⟩
  | cons c cs' ih =>
    intro m hnd
    have hnd1 : ((bumpKey m (natKey c.page)).map Prod.fst).Nodup :=
      nodup_bumpKey m _ hnd
    obtain ⟨ihnd, ihsum, ihlook⟩ := ih (bumpKey m (natKey c.page)) hnd1
    refine ⟨ihnd, ?_, ?_⟩
    · rw [List.foldl_cons]
      rw [ihsum, sum_bumpKey m _ hnd]
      simp [List.length_cons]
      omega
    · intro k
      rw [List.foldl_cons]
      rw [ihlook k, lookup_bumpKey m (natKey c.page) k]
      by_cases hck : natKey c.page = k
      · rw [List.filter_cons_of_pos (by simpa using hck)]
        rw [if_pos hck.symm]
        simp
        omega
      · rw [List.filter_cons_of_neg (by simpa using hck)]
        rw [if_neg (fun h => hck h.symm)]
        omega

/-- C6: the Report Builder is pure aggregation of the ordered change list:
the report keeps the changes unchanged and in order, `summary.total` is the
length of the change list, `summary.by_page` maps each serialized page key
(`str(page)`) to the number of changes on that page, and the values of
`summary.by_page` sum to `summary.total`. -/
theorem C6_report_builder (changes : List Change) :
    (build_report changes).changes = changes
    ∧ (build_report changes).summary.total = changes.length
    ∧ (((build_report changes).summary.by_page.map Prod.snd).sum
        = (build_report changes).summary.total)
    ∧ ∀ k, lookupCount (build_report changes).summary.by_page k
        = (changes.filter (fun c => natKey c.page = k)).length := by
  have hinv := report_fold_inv changes [] (by simp)
  refine ⟨rfl, rfl, ?_, ?_⟩
  · show ((changes.foldl (fun acc c => bumpKey acc (natKey c.page)) []).map
      Prod.snd).sum = changes.length
    rw [hinv.2.1]
    simp
  · intro k
    show lookupCount (changes.foldl (fun acc c => bumpKey acc (natKey c.page)) []) k = _
    rw [hinv.2.2 k]
    simp [lookupCount]

theorem changesOfOpcode_strip (lines1 lines2 : List (List Char)) (pageNum : Nat)
    (op : Opcode) : ∀ c ∈ changesOfOpcode lines1 lines2 pageNum op,
      strip c.text ≠ [] := by
  intro c hc
  unfold changesOfOpcode at hc
  cases htag : op.tag <;> rw [htag] at hc <;> dsimp only at hc
  case replace =>
    rcases List.mem_append.mp hc with h | h <;> split_ifs at h with hcond
    · rcases List.mem_singleton.mp h with rfl
      exact hcond
    · exact absurd h (List.not_mem_nil c)
    · rcases List.mem_singleton.mp h with rfl
      exact hcond
    · exact absurd h (List.not_mem_nil c)
  case delete =>
    split_ifs at hc with hcond
    · rcases List.mem_singleton.mp hc with rfl
      exact hcond
    · exact absurd hc (List.not_mem_nil c)
  case insert =>
    split_ifs at hc with hcond
    · rcases List.mem_singleton.mp hc with rfl
      exact hcond
    · exact absurd hc (List.not_mem_nil c)
  case equal => exact absurd hc (List.not_mem_nil c)

/-- C10: every change record produced by the comparison has text that is
non-empty after trimming whitespace — both in the raw change list and in the
report built from it (whose `changes` field, serialized to `report.json` and
rendered into `report.txt`, is that same list). -/
theorem C10_no_blank_changes (texts1 texts2 : List (List Char)) :
    (∀ c ∈ line_diff_changes texts1 texts2, strip c.text ≠ [])
    ∧ (∀ c ∈ (build_report (line_diff_changes texts1 texts2)).changes,
        strip c.text ≠ []) := by
  have hmain : ∀ c ∈ line_diff_changes texts1 texts2, strip c.text ≠ [] := by
    intro c hc
    unfold line_diff_changes at hc
    rcases List.mem_flatten.mp hc with ⟨l, hl, hcl⟩
    rcases List.mem_map.mp hl with ⟨i, _, rfl⟩
    rcases List.mem_flatten.mp hcl with ⟨l2, hl2, hcl2⟩
    rcases List.mem_map.mp hl2 with ⟨op, _, rfl⟩
    exact changesOfOpcode_strip _ _ _ op c hcl2
  exact ⟨hmain, hmain⟩

/-- Witness for C10: on page texts "a" vs "b" the produced remove-change for
"a" has non-blank text. -/
theorem C10_no_blank_changes_witness :
    strip (Change.mk 1 ChangeType.remove ['a']).text ≠ [] :=
  (C10_no_blank_changes [['a']] [['b']]).1 ⟨1, ChangeType.remove, ['a']⟩ (by decide)

theorem dropWhile_append_all {p : Char → Bool} (l₁ l₂ : List Char)
    (h : ∀ c ∈ l₁, p c = true) :
    (l₁ ++ l₂).dropWhile p = l₂.dropWhile p := by
  induction l₁ with
  | nil => rfl
  | cons c l₁' ih =>
    rw [List.cons_append, List.dropWhile_cons_of_pos (h c (List.mem_cons_self _ _))]
    exact ih (fun c' hc' => h c' (List.mem_cons_of_mem _ hc'))

theorem strip_pad_left (pad t : List Char) (h : ∀ c ∈ pad, isPySpace c) :
    strip (pad ++ t) = strip t := by
  unfold strip
  rw [dropWhile_append_all pad t h]

theorem strip_pad_right (t pad : List Char) (h : ∀ c ∈ pad, isPySpace c) :
    strip (t ++ pad) = strip t := by
  unfold strip
  cases hs : t.dropWhile isPySpace with
  | nil =>
    have htall : ∀ c ∈ t, isPySpace c := by
      rw [← List.dropWhile_eq_nil_iff]
      exact hs
    rw [dropWhile_append_all t pad htall, List.dropWhile_eq_nil_iff.mpr h]
  | cons y ys =>
    have hsplit : (t ++ pad).dropWhile isPySpace = (y :: ys) ++ pad := by
      rw [List.dropWhile_append, hs]
      simp
    rw [hsplit]
    rw [List.reverse_append]
    rw [dropWhile_append_all pad.reverse (y :: ys).reverse
      (fun c hc => h c (List.mem_reverse.mp hc))]

theorem strip_outerWsEq (t t' : List Char) (h : OuterWsEq t t') :
    strip t = strip t' := by
  obtain ⟨l, r, l', r', core, hl, hr, hl', hr', ht, ht'⟩ := h
  rw [ht, ht']
  rw [show l ++ core ++ r = l ++ (core ++ r) by simp]
  rw [show l' ++ core ++ r' = l' ++ (core ++ r') by simp]
  rw [strip_pad_left l _ hl, strip_pad_left l' _ hl',
    strip_pad_right core r hr, strip_pad_right core r' hr']

theorem extract_eq_of_wsEq {β : Type} :
    ∀ (d d' : List (RawPage β)),
      List.Forall₂ (fun p p' => OuterWsEq p.text p'.text) d d' →
      extract_text_per_page d = extract_text_per_page d' := by
  intro d d' h
  induction h with
  | nil => rfl
  | @cons p p' tl tl' hpq _ ih =>
    show strip p.text :: extract_text_per_page tl
      = strip p'.text :: extract_text_per_page tl'
    rw [strip_outerWsEq _ _ hpq, ih]

/-- C9: the engine strips each page's extracted text before splitting it
into lines (`extract_text_per_page` applies `.strip()`), so two comparison
runs whose inputs differ only in leading/trailing whitespace of pages'
texts produce identical change lists, and hence identical reports. -/
theorem C9_outer_whitespace_insensitive {β : Type}
    (d1 d1' d2 d2' : List (RawPage β))
    (h1 : List.Forall₂ (fun p p' => OuterWsEq p.text p'.text) d1 d1')
    (h2 : List.Forall₂ (fun p p' => OuterWsEq p.text p'.text) d2 d2') :
    line_diff_changes (extract_text_per_page d1) (extract_text_per_page d2)
      = line_diff_changes (extract_text_per_page d1') (extract_text_per_page d2')
    ∧ build_report
        (line_diff_changes (extract_text_per_page d1) (extract_text_per_page d2))
      = build_report
        (line_diff_changes (extract_text_per_page d1') (extract_text_per_page d2')) := by
  rw [extract_eq_of_wsEq d1 d1' h1, extract_eq_of_wsEq d2 d2' h2]
  exact ⟨rfl, rfl⟩

/-- Witness for C9: pages " a " and "a" (left documents) against the empty
document on the right give the same change list and report. -/
theorem C9_outer_whitespace_insensitive_witness :
    line_diff_changes
        (extract_text_per_page [(⟨[' ', 'a', ' '], []⟩ : RawPage Nat)])
        (extract_text_per_page ([] : List (RawPage Nat)))
      = line_diff_changes
        (extract_text_per_page [(⟨['a'], []⟩ : RawPage Nat)])
        (extract_text_per_page ([] : List (RawPage Nat))) :=
  (C9_outer_whitespace_insensitive [⟨[' ', 'a', ' '], []⟩] [⟨['a'], []⟩] [] []
    (List.forall₂_cons.mpr
      ⟨⟨[' '], [' '], [], [], ['a'], by decide, by decide, by decide, by decide,
        rfl, rfl⟩, List.Forall₂.nil⟩)
    List.Forall₂.nil).1

/-- C8: if extraction fails for either input document the whole comparison
fails with an `ExtractionFailed` error carrying the message, and no
artifacts are produced — a successful result exists only when both
extractions succeeded.  (The error kind is modelled from §7 of the spec;
the worker lets the exception abort the job before any artifact is
written, lines 908-909 and 1204-1206 of worker.py.) -/
theorem C8_extraction_failure {β : Type}
    (ext1 ext2 : Except (List Char) (List (RawPage β))) :
    ((∃ m, ext1 = .error m) ∨ (∃ m, ext2 = .error m) →
      ∃ m, compare_job ext1 ext2 = .error (CompareError.extractionFailed m))
    ∧ (∀ art, compare_job ext1 ext2 = .ok art →
        ∃ d1 d2, ext1 = .ok d1 ∧ ext2 = .ok d2) := by
  constructor
  · intro h
    cases ext1 with
    | error m => exact ⟨m, rfl⟩
    | ok d1 =>
      cases ext2 with
      | error m => exact ⟨m, rfl⟩
      | ok d2 =>
        rcases h with ⟨m, hm⟩ | ⟨m, hm⟩ <;> exact absurd hm (by simp)
  · intro art hart
    cases ext1 with
    | error m => exact absurd hart (by simp [compare_job])
    | ok d1 =>
      cases ext2 with
      | error m => exact absurd hart (by simp [compare_job])
      | ok d2 => exact ⟨d1, d2, rfl, rfl⟩

/-- Witness for C8: a failed left extraction yields the `ExtractionFailed`
error. -/
theorem C8_extraction_failure_witness :
    ∃ m, compare_job (Except.error ['x'])
        (Except.ok ([] : List (RawPage Nat)))
      = Except.error (CompareError.extractionFailed m) :=
  (C8_extraction_failure (Except.error ['x'])
      (Except.ok ([] : List (RawPage Nat)))).1 (Or.inl ⟨['x'], rfl⟩)

theorem dchain_pos_eq (a : List α) (lo hi j : Nat) (h1 : lo ≤ j) (h2 : j < hi)
    (h3 : rareAt a j = true) :
    dchain a lo hi j = if j = lo then 1 else dchain a lo hi (j - 1) + 1 := by
  rw [dchain]
  rw [if_pos ⟨h1, h2, h3⟩]

theorem dchain_eq_zero (a : List α) (lo hi j : Nat)
    (h : ¬(lo ≤ j ∧ j < hi ∧ rareAt a j = true)) : dchain a lo hi j = 0 := by
  rw [dchain]
  rw [if_neg h]

theorem dchain_le (a : List α) (lo hi : Nat) : ∀ j, dchain a lo hi j ≤ j + 1 - lo := by
  intro j
  induction j using Nat.strong_induction_on with
  | _ j ih =>
    rw [dchain]
    split
    · next h =>
      split
      · next hj => omega
      · next hj =>
        have := ih (j - 1) (by omega)
        omega
    · omega

theorem sorted_split {l : List Nat} {r : Nat} (hs : List.Pairwise (· < ·) l)
    (hr : r ∈ l) :
    l = l.filter (fun j => decide (j < r)) ++ r :: l.filter (fun j => decide (r < j)) := by
  induction l with
  | nil => cases hr
  | cons x xs ih =>
    rcases List.mem_cons.mp hr with rfl | hmem
    · have hall : ∀ y ∈ xs, r < y := fun y hy => (List.pairwise_cons.mp hs).1 y hy
      rw [List.filter_cons_of_neg (by simp), List.filter_cons_of_neg (by simp)]
      rw [List.filter_eq_nil_iff.mpr (by
        intro y hy
        have := hall y hy
        simp
        omega)]
      rw [List.filter_eq_self.mpr (by
        intro y hy
        simpa using hall y hy)]
      simp
    · have hxr : x < r := (List.pairwise_cons.mp hs).1 r hmem
      rw [List.filter_cons_of_pos (by simpa using hxr),
        List.filter_cons_of_neg (by simpa using (by omega : ¬ r < x))]
      rw [List.cons_append]
      congr 1
      exact ih (List.pairwise_cons.mp hs).2 hmem

theorem dpFold_fst (s : DPState) (r : Nat) :
    ∀ (js : List Nat) (t : (Nat → Nat) × Block) (j' : Nat),
      (js.foldl (dpStep s r) t).1 j'
        = if j' ∈ js then (if j' = 0 then 0 else s.j2len (j' - 1)) + 1
          else t.1 j' := by
  intro js
  induction js with
  | nil =>
    intro t j'
    simp
  | cons j js' ih =>
    intro t j'
    rw [List.foldl_cons, ih]
    by_cases hmem : j' ∈ js'
    · rw [if_pos hmem, if_pos (List.mem_cons_of_mem _ hmem)]
    · rw [if_neg hmem]
      by_cases hj : j' = j
      · subst hj
        rw [if_pos (List.mem_cons_self _ _), dpStep_fst, if_pos rfl]
      · rw [if_neg (by simp [hj, hmem]), dpStep_fst, if_neg hj]

theorem dpFold_snd (s : DPState) (r : Nat) :
    ∀ (js : List Nat) (t : (Nat → Nat) × Block),
      (js.foldl (dpStep s r) t).2
        = js.foldl (fun m j =>
            if m.size < (if j = 0 then 0 else s.j2len (j - 1)) + 1 then
              Block.mk (r + 1 - ((if j = 0 then 0 else s.j2len (j - 1)) + 1))
                (j + 1 - ((if j = 0 then 0 else s.j2len (j - 1)) + 1))
                ((if j = 0 then 0 else s.j2len (j - 1)) + 1)
            else m) t.2 := by
  intro js
  induction js with
  | nil => intro t; rfl
  | cons j js' ih =>
    intro t
    rw [List.foldl_cons, List.foldl_cons, ih]
    congr 1

theorem bestFold_no_update (s : DPState) (r : Nat) :
    ∀ (L : List Nat) (m : Block),
      (∀ j ∈ L, (if j = 0 then 0 else s.j2len (j - 1)) + 1 ≤ m.size) →
      L.foldl (fun m j =>
          if m.size < (if j = 0 then 0 else s.j2len (j - 1)) + 1 then
            Block.mk (r + 1 - ((if j = 0 then 0 else s.j2len (j - 1)) + 1))
              (j + 1 - ((if j = 0 then 0 else s.j2len (j - 1)) + 1))
              ((if j = 0 then 0 else s.j2len (j - 1)) + 1)
          else m) m = m := by
  intro L
  induction L with
  | nil => intro m _; rfl
  | cons j L' ih =>
    intro m h
    rw [List.foldl_cons, if_neg (by
      have := h j (List.mem_cons_self _ _)
      omega)]
    exact ih m (fun j' hj' => h j' (List.mem_cons_of_mem _ hj'))

theorem selfDP_row (a : List α) (lo hi r : Nat) (hlr : lo ≤ r) (hrh : r < hi)
    (hlen : r < a.length) (s : DPState) (hs : SelfDPInv a lo hi r s) :
    SelfDPInv a lo hi (r + 1) (dpRow a a lo hi s r) := by
  obtain ⟨hdiag, hblo, hbsize, hdom, hC, hC2, hD⟩ := hs
  have hget : a.get? r = some a[r] := by
    rw [List.get?_eq_getElem?, List.getElem?_eq_getElem hlen]
  unfold dpRow
  rw [hget]
  dsimp only
  by_cases hpop : isPopular a a[r] = true
  · -- the row's value is purged by autojunk: the row is a no-op on the best
    have hb2j : b2j a a[r] = [] := by
      unfold b2j
      rw [if_pos hpop]
    rw [hb2j]
    have hrare : rareAt a r = false := by
      simp only [rareAt, hget, hpop, Bool.not_true]
    have hdr : dchain a lo hi r = 0 :=
      dchain_eq_zero a lo hi r (fun hc => by rw [hrare] at hc; exact absurd hc.2.2 (by simp))
    refine ⟨hdiag, hblo, ?_, ?_, ?_, ?_, ?_⟩
    · show s.best.a + s.best.size ≤ r + 1
      omega
    · intro j hj1 hj2
      rcases Nat.lt_or_ge j r with h | h
      · exact hdom j hj1 h
      · have : j = r := by omega
        subst this
        rw [hdr]
        exact Nat.zero_le _
    · intro j
      exact Nat.zero_le _
    · intro j
      exact Nat.zero_le _
    · right
      refine ⟨by omega, ?_⟩
      show (0 : Nat) = dchain a lo hi (r + 1 - 1)
      rw [show r + 1 - 1 = r by omega, hdr]
  · -- the row's value survives autojunk
    have hb2j : b2j a a[r] = indicesOf a a[r] := by
      unfold b2j
      rw [if_neg hpop]
    rw [hb2j]
    set js := (indicesOf a a[r]).filter
      (fun j => decide (lo ≤ j) && decide (j < hi)) with hjs
    have hmem : ∀ j ∈ js, lo ≤ j ∧ j < hi ∧ a.get? j = some a[r] := by
      intro j hj
      rw [hjs] at hj
      have h1 := List.of_mem_filter hj
      have h2 := List.mem_of_mem_filter hj
      unfold indicesOf at h2
      have h3 := List.of_mem_filter h2
      simp only [Bool.and_eq_true, decide_eq_true_eq] at h1 h3
      exact ⟨h1.1, h1.2, by simpa using h3⟩
    have hpopf : isPopular a a[r] = false := Bool.eq_false_iff.mpr hpop
    have hrarej : ∀ j ∈ js, rareAt a j = true := by
      intro j hj
      simp only [rareAt, (hmem j hj).2.2, hpopf, Bool.not_false]
    have hrarer : rareAt a r = true := by
      simp only [rareAt, hget, hpopf, Bool.not_false]
    have hsorted : List.Pairwise (· < ·) js := by
      rw [hjs]
      exact ((List.pairwise_lt_range a.length).filter _).filter _
    have hrin : r ∈ js := by
      rw [hjs]
      refine List.mem_filter.mpr ⟨?_, by simp [hlr, hrh]⟩
      unfold indicesOf
      exact List.mem_filter.mpr ⟨List.mem_range.mpr hlen, by simp [hget]⟩
    -- the k value written at each column
    have hdr : dchain a lo hi r = if r = lo then 1 else dchain a lo hi (r - 1) + 1 :=
      dchain_pos_eq a lo hi r hlr hrh hrarer
    have hK1 : ∀ j ∈ js, (if j = 0 then 0 else s.j2len (j - 1)) + 1
        ≤ dchain a lo hi j := by
      intro j hj
      obtain ⟨hj1, hj2, _⟩ := hmem j hj
      rw [dchain_pos_eq a lo hi j hj1 hj2 (hrarej j hj)]
      by_cases hjlo : j = lo
      · rw [if_pos hjlo]
        rcases Nat.eq_zero_or_pos j with hz | hpos
        · simp [hz]
        · rw [if_neg (by omega)]
          have h1 := hC (j - 1)
          have h0 : dchain a lo hi (j - 1) = 0 :=
            dchain_eq_zero a lo hi (j - 1) (fun hc => absurd hc.1 (by omega))
          omega
      · rw [if_neg hjlo, if_neg (by omega)]
        have := hC (j - 1)
        omega
    have hK2 : ∀ j ∈ js, (if j = 0 then 0 else s.j2len (j - 1)) + 1
        ≤ dchain a lo hi r := by
      intro j hj
      rw [hdr]
      by_cases hrlo : r = lo
      · have := hC2 (j - 1)
        rw [if_pos hrlo] at this
        rw [if_pos hrlo]
        split <;> omega
      · have := hC2 (j - 1)
        rw [if_neg hrlo] at this
        rw [if_neg hrlo]
        split <;> omega
    have hK3 : (if r = 0 then 0 else s.j2len (r - 1)) + 1 = dchain a lo hi r := by
      rw [hdr]
      by_cases hrlo : r = lo
      · have := hC2 (r - 1)
        rw [if_pos hrlo] at this
        rw [if_pos hrlo]
        split <;> omega
      · rcases hD with hD | ⟨_, hDe⟩
        · exact absurd hD hrlo
        · rw [if_neg hrlo, if_neg (by omega), hDe]
    -- decompose the fold
    have hsplit := sorted_split hsorted hrin
    have hfst : ∀ j', (js.foldl (dpStep s r) ((fun _ => 0), s.best)).1 j'
        = if j' ∈ js then (if j' = 0 then 0 else s.j2len (j' - 1)) + 1 else 0 :=
      fun j' => dpFold_fst s r js ((fun _ => 0), s.best) j'
    have hsnd := dpFold_snd s r js ((fun _ => 0), s.best)
    -- best after the fold
    set bstep := fun (m : Block) (j : Nat) =>
      if m.size < (if j = 0 then 0 else s.j2len (j - 1)) + 1 then
        Block.mk (r + 1 - ((if j = 0 then 0 else s.j2len (j - 1)) + 1))
          (j + 1 - ((if j = 0 then 0 else s.j2len (j - 1)) + 1))
          ((if j = 0 then 0 else s.j2len (j - 1)) + 1)
      else m with hbstep
    have hLsub : ∀ j ∈ js.filter (fun j => decide (j < r)), j ∈ js ∧ j < r := by
      intro j hj
      exact ⟨List.mem_of_mem_filter hj, by simpa using List.of_mem_filter hj⟩
    have hRsub : ∀ j ∈ js.filter (fun j => decide (r < j)), j ∈ js ∧ r < j := by
      intro j hj
      exact ⟨List.mem_of_mem_filter hj, by simpa using List.of_mem_filter hj⟩
    have hfoldL : (js.filter (fun j => decide (j < r))).foldl bstep s.best = s.best := by
      rw [hbstep]
      apply bestFold_no_update
      intro j hj
      obtain ⟨hjin, hjlt⟩ := hLsub j hj
      obtain ⟨hj1, _, _⟩ := hmem j hjin
      exact Nat.le_trans (hK1 j hjin) (hdom j hj1 hjlt)
    set kr := (if r = 0 then 0 else s.j2len (r - 1)) + 1 with hkr
    set m1 := if s.best.size < kr then
        Block.mk (r + 1 - kr) (r + 1 - kr) kr
      else s.best with hm1
    have hm1diag : m1.b = m1.a := by
      rw [hm1]
      split
      · rfl
      · exact hdiag
    have hm1size : dchain a lo hi r ≤ m1.size ∧ s.best.size ≤ m1.size := by
      rw [hm1]
      split
      · next hlt =>
        constructor
        · show dchain a lo hi r ≤ kr
          omega
        · show s.best.size ≤ kr
          omega
      · next hge =>
        constructor
        · omega
        · exact Nat.le_refl _
    have hm1blo : lo ≤ m1.a := by
      rw [hm1]
      split
      · show lo ≤ r + 1 - kr
        have h1 : kr ≤ r + 1 - lo := by
          rw [hK3]
          exact dchain_le a lo hi r
        omega
      · exact hblo
    have hm1hi : m1.a + m1.size ≤ r + 1 := by
      have h1 : kr ≤ r + 1 - lo := by
        rw [hK3]
        exact dchain_le a lo hi r
      rw [hm1]
      split
      · show r + 1 - kr + kr ≤ r + 1
        omega
      · omega
    have hfoldR : (js.filter (fun j => decide (r < j))).foldl bstep m1 = m1 := by
      rw [hbstep]
      apply bestFold_no_update
      intro j hj
      obtain ⟨hjin, _⟩ := hRsub j hj
      exact Nat.le_trans (hK2 j hjin) hm1size.1
    have hbest : (js.foldl (dpStep s r) ((fun _ => 0), s.best)).2 = m1 := by
      rw [hsnd]
      show js.foldl bstep s.best = m1
      rw [show js.foldl bstep s.best
          = ((js.filter (fun j => decide (j < r)))
              ++ r :: js.filter (fun j => decide (r < j))).foldl bstep s.best by
        rw [← hsplit]]
      rw [List.foldl_append, hfoldL, List.foldl_cons]
      rw [show bstep s.best r = m1 from rfl]
      exact hfoldR
    -- assemble the invariant at r + 1
    refine ⟨?_, ?_, ?_, ?_, ?_, ?_, ?_⟩
    · show (js.foldl (dpStep s r) ((fun _ => 0), s.best)).2.b = _
      rw [hbest, hm1diag]
    · show lo ≤ (js.foldl (dpStep s r) ((fun _ => 0), s.best)).2.a
      rw [hbest]
      exact hm1blo
    · show (js.foldl (dpStep s r) ((fun _ => 0), s.best)).2.a
        + (js.foldl (dpStep s r) ((fun _ => 0), s.best)).2.size ≤ r + 1
      rw [hbest]
      exact hm1hi
    · intro j hj1 hj2
      show dchain a lo hi j ≤ (js.foldl (dpStep s r) ((fun _ => 0), s.best)).2.size
      rw [hbest]
      rcases Nat.lt_or_ge j r with h | h
      · exact Nat.le_trans (hdom j hj1 h) hm1size.2
      · have : j = r := by omega
        subst this
        exact hm1size.1
    · intro j
      show (js.foldl (dpStep s r) ((fun _ => 0), s.best)).1 j ≤ _
      rw [hfst]
      split
      · next hjin => exact hK1 j hjin
      · exact Nat.zero_le _
    · intro j
      show (js.foldl (dpStep s r) ((fun _ => 0), s.best)).1 j ≤ _
      rw [hfst, if_neg (by omega : ¬ (r + 1 = lo))]
      rw [show r + 1 - 1 = r by omega]
      split
      · next hjin => exact hK2 j hjin
      · exact Nat.zero_le _
    · right
      refine ⟨by omega, ?_⟩
      show (js.foldl (dpStep s r) ((fun _ => 0), s.best)).1 (r + 1 - 1) = _
      rw [show r + 1 - 1 = r by omega, hfst, if_pos hrin, ← hkr]
      exact hK3

theorem selfDP_all (a : List α) (lo hi : Nat) :
    ∀ n, lo + n ≤ hi → lo + n ≤ a.length →
      SelfDPInv a lo hi (lo + n)
        ((List.range' lo n).foldl (dpRow a a lo hi) ⟨⟨lo, lo, 0⟩, fun _ => 0⟩) := by
  intro n
  induction n with
  | zero =>
    intro _ _
    refine ⟨rfl, Nat.le_refl _, Nat.le_refl _, ?_, ?_, ?_, Or.inl rfl⟩
    · intro j hj1 hj2
      exact absurd hj2 (by omega)
    · intro j
      exact Nat.zero_le _
    · intro j
      exact Nat.zero_le _
  | succ n ih =>
    intro h1 h2
    rw [List.range'_1_concat, List.foldl_append, List.foldl_cons, List.foldl_nil]
    have hprev := ih (by omega) (by omega)
    have hstep := selfDP_row a lo hi (lo + n) (by omega) (by omega) (by omega) _ hprev
    rw [show lo + (n + 1) = (lo + n) + 1 by omega]
    exact hstep

theorem flmDP_self (a : List α) (lo hi : Nat) (h1 : lo ≤ hi) (h2 : hi ≤ a.length) :
    SelfDPInv a lo hi hi (flmDP a a lo hi lo hi) := by
  have h := selfDP_all a lo hi (hi - lo) (by omega) (by omega)
  rw [show lo + (hi - lo) = hi by omega] at h
  unfold flmDP
  exact h

theorem extendBack_self (a : List α) (lo : Nat) :
    ∀ p sz, lo ≤ p → p ≤ a.length →
      extendBack a a lo lo p p sz = ⟨lo, lo, sz + (p - lo)⟩ := by
  intro p
  induction p with
  | zero =>
    intro sz h1 h2
    have hl : lo = 0 := by omega
    subst hl
    show (⟨0, 0, sz⟩ : Block) = ⟨0, 0, sz + (0 - 0)⟩
    simp
  | succ p ih =>
    intro sz h1 h2
    by_cases hlp : lo < p + 1
    · have hsome : (a.get? p).isSome := by
        rw [List.get?_eq_getElem?, List.getElem?_eq_getElem (by omega)]
        rfl
      rw [extendBack, if_pos ⟨hlp, hlp, hsome, rfl⟩]
      rw [show p + 1 - 1 = p by omega]
      rw [ih (sz + 1) (by omega) (by omega)]
      congr 1
      omega
    · rw [extendBack, if_neg (fun hc => absurd hc.1 hlp)]
      have hle : p + 1 - lo = 0 := by omega
      have hlo : lo = p + 1 := by omega
      rw [hle, hlo]
      simp

theorem extendFwdAux_self (a : List α) (lo hi : Nat) (hh : hi ≤ a.length) :
    ∀ fuel sz, lo + sz + fuel = hi →
      extendFwdAux a a hi hi lo lo fuel sz = sz + fuel := by
  intro fuel
  induction fuel with
  | zero =>
    intro sz h
    rfl
  | succ fuel ih =>
    intro sz h
    have hsome : (a.get? (lo + sz)).isSome := by
      rw [List.get?_eq_getElem?, List.getElem?_eq_getElem (by omega)]
      rfl
    rw [extendFwdAux, if_pos ⟨by omega, by omega, hsome, rfl⟩]
    rw [ih (sz + 1) (by omega)]
    omega

theorem flm_self (a : List α) (lo hi : Nat) (h1 : lo ≤ hi) (h2 : hi ≤ a.length) :
    find_longest_match a a lo hi lo hi = ⟨lo, lo, hi - lo⟩ := by
  obtain ⟨hdiag, hblo, hbsize, -, -, -, -⟩ := flmDP_self a lo hi h1 h2
  have hup : (flmDP a a lo hi lo hi).best.a ≤ a.length := by omega
  have hEB := extendBack_self a lo (flmDP a a lo hi lo hi).best.a
    (flmDP a a lo hi lo hi).best.size hblo hup
  show (Block.mk
      (extendBack a a lo lo (flmDP a a lo hi lo hi).best.a
        (flmDP a a lo hi lo hi).best.b (flmDP a a lo hi lo hi).best.size).a
      (extendBack a a lo lo (flmDP a a lo hi lo hi).best.a
        (flmDP a a lo hi lo hi).best.b (flmDP a a lo hi lo hi).best.size).b
      (extendFwd a a hi hi
        (extendBack a a lo lo (flmDP a a lo hi lo hi).best.a
          (flmDP a a lo hi lo hi).best.b (flmDP a a lo hi lo hi).best.size).a
        (extendBack a a lo lo (flmDP a a lo hi lo hi).best.a
          (flmDP a a lo hi lo hi).best.b (flmDP a a lo hi lo hi).best.size).b
        (extendBack a a lo lo (flmDP a a lo hi lo hi).best.a
          (flmDP a a lo hi lo hi).best.b (flmDP a a lo hi lo hi).best.size).size))
    = Block.mk lo lo (hi - lo)
  rw [hdiag, hEB]
  dsimp only
  unfold extendFwd
  rw [extendFwdAux_self a lo hi h2
    (hi - (lo + ((flmDP a a lo hi lo hi).best.size
      + ((flmDP a a lo hi lo hi).best.a - lo))))
    ((flmDP a a lo hi lo hi).best.size + ((flmDP a a lo hi lo hi).best.a - lo))
    (by omega)]
  congr 1
  omega

theorem mblocksAux_self (a : List α) (hn : a.length ≠ 0) (f : Nat) :
    mblocksAux a a (f + 1) 0 a.length 0 a.length = [⟨0, 0, a.length⟩] := by
  have hflm : find_longest_match a a 0 a.length 0 a.length = ⟨0, 0, a.length⟩ := by
    rw [flm_self a 0 a.length (Nat.zero_le _) (Nat.le_refl _), Nat.sub_zero]
  rw [mblocksAux, hflm]
  dsimp only
  rw [if_neg hn, if_neg (by omega : ¬(0 < 0 ∧ 0 < 0)),
    if_neg (by omega : ¬(0 + a.length < a.length ∧ 0 + a.length < a.length))]
  rfl

theorem get_opcodes_self (a : List α) :
    get_opcodes a a
      = if a.length = 0 then [] else [⟨Tag.equal, 0, a.length, 0, a.length⟩] := by
  by_cases hn : a.length = 0
  · rw [if_pos hn]
    unfold get_opcodes get_matching_blocks
    rw [hn]
    rfl
  · rw [if_neg hn]
    unfold get_opcodes get_matching_blocks
    rw [show a.length + a.length = (a.length + a.length - 1) + 1 by omega]
    rw [mblocksAux_self a hn]
    rw [collapseAux, if_pos ⟨rfl, rfl⟩, collapseAux,
      if_pos (by show (0 : Nat) + a.length ≠ 0; omega)]
    dsimp only
    rw [List.singleton_append, opcodesFromBlocks]
    dsimp only
    rw [if_neg (by omega : ¬((0 : Nat) < 0 ∧ (0 : Nat) < 0)),
      if_neg (by omega : ¬(0 : Nat) < 0), if_neg (by omega : ¬(0 : Nat) < 0),
      if_pos (by show (0 : Nat) + a.length ≠ 0; omega)]
    rw [opcodesFromBlocks]
    dsimp only
    rw [if_neg (by omega : ¬(0 + (0 + a.length) < a.length ∧ 0 + (0 + a.length) < a.length)),
      if_neg (by omega : ¬0 + (0 + a.length) < a.length),
      if_neg (by omega : ¬0 + (0 + a.length) < a.length),
      if_neg (by omega : ¬(0 : Nat) ≠ 0)]
    simp [opcodesFromBlocks]

theorem pageChanges_self (pageNum : Nat) (L : List (List Char)) :
    pageChanges pageNum L L = [] := by
  unfold pageChanges
  rw [get_opcodes_self]
  by_cases h : L.length = 0
  · rw [if_pos h]
    rfl
  · rw [if_neg h]
    rfl

theorem line_diff_self (texts : List (List Char)) :
    line_diff_changes texts texts = [] := by
  unfold line_diff_changes
  rw [Nat.max_self]
  rw [List.flatten_eq_nil_iff]
  intro x hx
  obtain ⟨i, -, rfl⟩ := List.mem_map.mp hx
  exact pageChanges_self _ _

theorem wordDiffPage_self {β : Type} (wl : List (Word α β)) :
    wordDiffPage wl wl = ([], []) := by
  unfold wordDiffPage
  rw [get_opcodes_self]
  by_cases h : (wl.map Word.text).length = 0
  · rw [if_pos h]
    rfl
  · rw [if_neg h]
    rfl

theorem word_diff_self {β : Type} (d : List (RawPage β)) :
    word_diff d d
      = (List.replicate d.length ⟨[], []⟩, List.replicate d.length ⟨[], []⟩) := by
  unfold word_diff
  simp only [Nat.max_self, wordDiffPage_self, List.map_map, Function.comp_def]
  rw [List.map_const', List.length_range]

theorem isPopular_false (b : List α) (x : α) (hb : b.length < 200) :
    isPopular b x = false := by
  have h : ¬(200 ≤ b.length) := by omega
  simp [isPopular, h]

theorem b2j_eq_indicesOf (b : List α) (x : α) (hb : b.length < 200) :
    b2j b x = indicesOf b x := by
  simp [b2j, isPopular_false b x hb]

theorem mem_indicesOf (b : List α) (x : α) (j : Nat) :
    j ∈ indicesOf b x ↔ j < b.length ∧ b.get? j = some x := by
  unfold indicesOf
  rw [List.mem_filter, List.mem_range]
  simp

theorem indicesOf_sorted (b : List α) (x : α) :
    List.Pairwise (· < ·) (indicesOf b x) :=
  (List.pairwise_lt_range b.length).filter _

theorem blockAt_iff (a b : List α) (p q k : Nat) :
    blockAt a b p q k = true
      ↔ ∀ t, t < k → (a.get? (p + t)).isSome ∧ a.get? (p + t) = b.get? (q + t) := by
  unfold blockAt
  rw [List.all_eq_true]
  constructor
  · intro h t ht
    have := h t (List.mem_range.mpr ht)
    simp only [Bool.and_eq_true, decide_eq_true_eq] at this
    exact this
  · intro h t ht
    have := h t (List.mem_range.mp ht)
    simp only [Bool.and_eq_true, decide_eq_true_eq]
    exact this

theorem suffixRun_le (a b : List α) (alo blo : Nat) :
    ∀ i j, suffixRun a b alo blo i j ≤ i + 1 - alo
      ∧ suffixRun a b alo blo i j ≤ j + 1 - blo := by
  intro i
  induction i using Nat.strong_induction_on with
  | _ i ih =>
    intro j
    rw [suffixRun]
    split
    · next h =>
      split
      · next h2 => constructor <;> omega
      · next h2 =>
        have := ih (i - 1) (by omega) (j - 1)
        constructor <;> omega
    · constructor <;> omega

theorem suffixRun_block (a b : List α) (alo blo : Nat) :
    ∀ k i j, suffixRun a b alo blo i j = k → 0 < k →
      blockAt a b (i + 1 - k) (j + 1 - k) k = true
        ∧ alo ≤ i + 1 - k ∧ blo ≤ j + 1 - k := by
  intro k
  induction k with
  | zero => intro i j _ h; exact absurd h (Nat.lt_irrefl 0)
  | succ k ihk =>
    intro i j hrun hpos
    rw [suffixRun] at hrun
    split at hrun
    · next hc =>
      obtain ⟨h1, h2, h3, h4⟩ := hc
      split at hrun
      · next h5 =>
        have hk : k = 0 := by omega
        subst hk
        refine ⟨?_, by omega, by omega⟩
        rw [blockAt_iff]
        intro t ht
        have : t = 0 := by omega
        subst this
        rw [show i + 1 - 1 + 0 = i by omega, show j + 1 - 1 + 0 = j by omega]
        exact ⟨h3, h4⟩
      · next h5 =>
        have hinner : suffixRun a b alo blo (i - 1) (j - 1) = k := by omega
        by_cases hk0 : k = 0
        · subst hk0
          refine ⟨?_, by omega, by omega⟩
          rw [blockAt_iff]
          intro t ht
          have : t = 0 := by omega
          subst this
          rw [show i + 1 - 1 + 0 = i by omega, show j + 1 - 1 + 0 = j by omega]
          exact ⟨h3, h4⟩
        · obtain ⟨hBA, hA, hB⟩ := ihk (i - 1) (j - 1) hinner (by omega)
          have hi : 1 ≤ i := by omega
          have hj : 1 ≤ j := by omega
          have hle := suffixRun_le a b alo blo (i - 1) (j - 1)
          rw [hinner] at hle
          refine ⟨?_, by omega, by omega⟩
          rw [blockAt_iff] at hBA ⊢
          intro t ht
          by_cases htk : t < k
          · rw [show i + 1 - (k + 1) + t = i - 1 + 1 - k + t by omega,
              show j + 1 - (k + 1) + t = j - 1 + 1 - k + t by omega]
            exact hBA t htk
          · have : t = k := by omega
            subst this
            rw [show i + 1 - (t + 1) + t = i by omega,
              show j + 1 - (t + 1) + t = j by omega]
            exact ⟨h3, h4⟩
    · omega

theorem block_suffixRun (a b : List α) (alo blo : Nat) :
    ∀ k p q, blockAt a b p q k = true → alo ≤ p → blo ≤ q → 0 < k →
      k ≤ suffixRun a b alo blo (p + k - 1) (q + k - 1) := by
  intro k
  induction k with
  | zero => intro p q _ _ _ h; exact absurd h (Nat.lt_irrefl 0)
  | succ k ihk =>
    intro p q hBA hp hq _
    rw [blockAt_iff] at hBA
    have hlast := hBA k (by omega)
    by_cases hk0 : k = 0
    · subst hk0
      rw [suffixRun]
      rw [if_pos ⟨by omega, by omega, by simpa using hlast.1, by simpa using hlast.2⟩]
      split <;> omega
    · have hrec := ihk p q (by
        rw [blockAt_iff]
        intro t ht
        exact hBA t (by omega)) hp hq (by omega)
      rw [show p + (k + 1) - 1 = p + k by omega, show q + (k + 1) - 1 = q + k by omega]
      rw [suffixRun]
      rw [if_pos ⟨by omega, by omega, hlast.1, hlast.2⟩]
      rw [if_neg (by omega : ¬(p + k = alo ∨ q + k = blo))]
      have hidx : p + k - 1 = p + k - 1 := rfl
      omega

theorem le_foldr_max : ∀ (l : List Nat) (x : Nat), x ∈ l → x ≤ l.foldr max 0 := by
  intro l
  induction l with
  | nil => intro x h; cases h
  | cons y l ih =>
    intro x h
    rw [List.foldr_cons]
    rcases List.mem_cons.mp h with rfl | h
    · exact Nat.le_max_left _ _
    · exact Nat.le_trans (ih x h) (Nat.le_max_right _ _)

theorem foldr_max_mem : ∀ (l : List Nat), l.foldr max 0 = 0 ∨ l.foldr max 0 ∈ l := by
  intro l
  induction l with
  | nil => left; rfl
  | cons y l ih =>
    rw [List.foldr_cons]
    rcases Nat.le_total y (l.foldr max 0) with h | h
    · rw [Nat.max_eq_right h]
      rcases ih with h0 | hm
      · left; exact h0
      · right; exact List.mem_cons_of_mem _ hm
    · rw [Nat.max_eq_left h]
      right
      exact List.mem_cons_self _ _

theorem isBlockIn_iff (a b : List α) (alo ahi blo bhi p q k : Nat) :
    isBlockIn a b alo ahi blo bhi p q k = true
      ↔ alo ≤ p ∧ p + k ≤ ahi ∧ blo ≤ q ∧ q + k ≤ bhi ∧ blockAt a b p q k = true := by
  unfold isBlockIn
  simp [Bool.and_eq_true, decide_eq_true_eq, and_assoc]

theorem existsBlockOfLen_iff (a b : List α) (alo ahi blo bhi k : Nat) :
    existsBlockOfLen a b alo ahi blo bhi k = true
      ↔ ∃ p q, alo ≤ p ∧ p < ahi ∧ blo ≤ q ∧ q < bhi
          ∧ isBlockIn a b alo ahi blo bhi p q k = true := by
  unfold existsBlockOfLen
  rw [List.any_eq_true]
  constructor
  · rintro ⟨p, hp, hinner⟩
    have hinner' : (List.range' blo (bhi - blo)).any
        (fun q => isBlockIn a b alo ahi blo bhi p q k) = true := hinner
    rw [List.any_eq_true] at hinner'
    obtain ⟨q, hq, hblk⟩ := hinner'
    rw [List.mem_range'_1] at hp hq
    exact ⟨p, q, by omega, by omega, by omega, by omega, hblk⟩
  · rintro ⟨p, q, h1, h2, h3, h4, hblk⟩
    refine ⟨p, List.mem_range'_1.mpr ⟨h1, by omega⟩, ?_⟩
    show (List.range' blo (bhi - blo)).any (fun q => isBlockIn a b alo ahi blo bhi p q k) = true
    rw [List.any_eq_true]
    exact ⟨q, List.mem_range'_1.mpr ⟨h3, by omega⟩, hblk⟩

theorem le_maxBlockLen (a b : List α) (alo ahi blo bhi p q k : Nat)
    (h : isBlockIn a b alo ahi blo bhi p q k = true) (hk : k ≠ 0) :
    k ≤ maxBlockLen a b alo ahi blo bhi := by
  obtain ⟨h1, h2, h3, h4, h5⟩ := (isBlockIn_iff a b alo ahi blo bhi p q k).mp h
  unfold maxBlockLen
  apply le_foldr_max
  rw [List.mem_filter, List.mem_range]
  refine ⟨by omega, ?_⟩
  simp only [Bool.and_eq_true, decide_eq_true_eq]
  exact ⟨hk, (existsBlockOfLen_iff a b alo ahi blo bhi k).mpr
    ⟨p, q, h1, by omega, h3, by omega, h⟩⟩

theorem maxBlockLen_spec (a b : List α) (alo ahi blo bhi : Nat)
    (h : maxBlockLen a b alo ahi blo bhi ≠ 0) :
    existsBlockOfLen a b alo ahi blo bhi (maxBlockLen a b alo ahi blo bhi) = true := by
  unfold maxBlockLen at h ⊢
  rcases foldr_max_mem _ with h0 | hm
  · exact absurd h0 h
  · have h2 := (List.mem_filter.mp hm).2
    simp only [Bool.and_eq_true, decide_eq_true_eq] at h2
    exact h2.2

theorem maxBlockLen_empty (a b : List α) (alo ahi blo bhi : Nat)
    (h : alo = ahi ∨ blo = bhi) : maxBlockLen a b alo ahi blo bhi = 0 := by
  by_contra h0
  have hex := maxBlockLen_spec a b alo ahi blo bhi h0
  obtain ⟨p, q, h1, h2, h3, h4, _⟩ :=
    (existsBlockOfLen_iff a b alo ahi blo bhi _).mp hex
  rcases h with h | h <;> omega

theorem filter_headD_min (pred : Nat → Bool) :
    ∀ (n s pstar d : Nat), s ≤ pstar → pstar < s + n → pred pstar = true →
      (∀ pp, s ≤ pp → pp < pstar → pred pp = false) →
      ((List.range' s n).filter pred).headD d = pstar := by
  intro n
  induction n with
  | zero => intro s pstar d h1 h2 _ _; exact absurd h2 (by omega)
  | succ n ih =>
    intro s pstar d h1 h2 h3 h4
    rw [List.range'_succ]
    by_cases hs : s = pstar
    · subst hs
      rw [List.filter_cons_of_pos h3]
      rfl
    · have hps : pred s = false := h4 s (Nat.le_refl _) (by omega)
      rw [List.filter_cons_of_neg (by simp [hps])]
      exact ih (s + 1) pstar d (by omega) (by omega) h3
        (fun pp hp1 hp2 => h4 pp (by omega) hp2)

theorem blockAt_snoc (a b : List α) (p q k : Nat)
    (h : blockAt a b p q k = true)
    (h1 : (a.get? (p + k)).isSome = true) (h2 : a.get? (p + k) = b.get? (q + k)) :
    blockAt a b p q (k + 1) = true := by
  rw [blockAt_iff] at h ⊢
  intro t ht
  by_cases htk : t < k
  · exact h t htk
  · have : t = k := by omega
    subst this
    exact ⟨h1, h2⟩

theorem blockAt_concat (a b : List α) (p q k1 k2 : Nat)
    (h1 : blockAt a b p q k1 = true)
    (h2 : blockAt a b (p + k1) (q + k1) k2 = true) :
    blockAt a b p q (k1 + k2) = true := by
  rw [blockAt_iff] at h1 h2 ⊢
  intro t ht
  by_cases htk : t < k1
  · exact h1 t htk
  · have h3 := h2 (t - k1) (by omega)
    rw [show p + k1 + (t - k1) = p + t by omega,
      show q + k1 + (t - k1) = q + t by omega] at h3
    exact h3

theorem suffixRun_nomatch (a b : List α) (alo blo r j : Nat) (x : α)
    (hx : a.get? r = some x) (hne : b.get? j ≠ some x) :
    suffixRun a b alo blo r j = 0 := by
  rw [suffixRun]
  rw [if_neg (fun hc => hne (by rw [← hc.2.2.2]; exact hx))]

theorem BestCellAt_zero_ext (a b : List α) (alo blo bhi r c cc : Nat)
    (hcc : c ≤ cc ∨ bhi ≤ cc)
    (hz : ∀ j, c ≤ j → j < cc → blo ≤ j → j < bhi → suffixRun a b alo blo r j = 0)
    (m : Block) (h : BestCellAt a b alo blo bhi r c m) :
    BestCellAt a b alo blo bhi r cc m := by
  have hsplit : ∀ i j, ProcCell alo blo bhi r cc i j →
      ProcCell alo blo bhi r c i j
        ∨ (alo ≤ i ∧ i = r ∧ blo ≤ j ∧ j < bhi ∧ c ≤ j ∧ j < cc) := by
    intro i j hp
    unfold ProcCell at hp ⊢
    omega
  rcases h with ⟨hm, hall⟩ | ⟨i, j, hcell, hpos, hm, hmax, hfirst⟩
  · left
    refine ⟨hm, ?_⟩
    intro i j hp
    rcases hsplit i j hp with hp | ⟨h0, hi, hbj, hjb, hcj, hjc⟩
    · exact hall i j hp
    · subst hi
      exact hz j hcj hjc hbj hjb
  · right
    refine ⟨i, j, ?_, hpos, hm, ?_, ?_⟩
    · unfold ProcCell at hcell ⊢
      omega
    · intro ii jj hp
      rcases hsplit ii jj hp with hp | ⟨h0, hi, hbj, hjb, hcj, hjc⟩
      · exact hmax ii jj hp
      · subst hi
        rw [hz jj hcj hjc hbj hjb]
        omega
    · intro ii jj hp heq
      rcases hsplit ii jj hp with hp | ⟨h0, hi, hbj, hjb, hcj, hjc⟩
      · exact hfirst ii jj hp heq
      · subst hi
        rw [hz jj hcj hjc hbj hjb] at heq
        omega

theorem BestCellAt_step (a b : List α) (alo blo bhi r c : Nat)
    (hbc : blo ≤ c) (hcb : c < bhi) (halo : alo ≤ r)
    (k : Nat) (hk : k = suffixRun a b alo blo r c) (hpos : 0 < k)
    (m : Block) (h : BestCellAt a b alo blo bhi r c m) :
    BestCellAt a b alo blo bhi r (c + 1)
      (if m.size < k then Block.mk (r + 1 - k) (c + 1 - k) k else m) := by
  have hsplit : ∀ i j, ProcCell alo blo bhi r (c + 1) i j →
      ProcCell alo blo bhi r c i j ∨ (i = r ∧ j = c) := by
    intro i j hp
    unfold ProcCell at hp ⊢
    omega
  have hcell : ProcCell alo blo bhi r (c + 1) r c := by
    unfold ProcCell
    omega
  by_cases hlt : m.size < k
  · rw [if_pos hlt]
    right
    refine ⟨r, c, hcell, by omega, by rw [← hk], ?_, ?_⟩
    · intro ii jj hp
      rcases hsplit ii jj hp with hp | ⟨hi, hj⟩
      · have hold : suffixRun a b alo blo ii jj ≤ m.size := by
          rcases h with ⟨hm2, hall⟩ | ⟨i, j, hc2, hp2, hm2, hmax2, hfirst2⟩
          · rw [hall ii jj hp]
            omega
          · have hle := hmax2 ii jj hp
            have hms : m.size = suffixRun a b alo blo i j := by rw [hm2]
            omega
        omega
      · subst hi
        subst hj
        omega
    · intro ii jj hp heq
      rcases hsplit ii jj hp with hp | ⟨hi, hj⟩
      · have hold : suffixRun a b alo blo ii jj ≤ m.size := by
          rcases h with ⟨hm2, hall⟩ | ⟨i, j, hc2, hp2, hm2, hmax2, hfirst2⟩
          · rw [hall ii jj hp]
            omega
          · have hle := hmax2 ii jj hp
            have hms : m.size = suffixRun a b alo blo i j := by rw [hm2]
            omega
        omega
      · subst hi
        subst hj
        omega
  · rw [if_neg hlt]
    rcases h with ⟨hm2, hall⟩ | ⟨i, j, hc2, hp2, hm2, hmax2, hfirst2⟩
    · exfalso
      apply hlt
      rw [hm2]
      show (0 : Nat) < k
      omega
    · right
      have hms : m.size = suffixRun a b alo blo i j := by rw [hm2]
      refine ⟨i, j, ?_, hp2, hm2, ?_, ?_⟩
      · unfold ProcCell at hc2 ⊢
        omega
      · intro ii jj hp
        rcases hsplit ii jj hp with hp | ⟨hi, hj⟩
        · exact hmax2 ii jj hp
        · subst hi
          subst hj
          omega
      · intro ii jj hp heq
        rcases hsplit ii jj hp with hp | ⟨hi, hj⟩
        · exact hfirst2 ii jj hp heq
        · subst hi
          subst hj
          unfold ProcCell at hc2
          omega

theorem BestCellAt_roll (a b : List α) (alo blo bhi r : Nat) (m : Block)
    (h : BestCellAt a b alo blo bhi r bhi m) :
    BestCellAt a b alo blo bhi (r + 1) blo m := by
  have hiff : ∀ i j, ProcCell alo blo bhi (r + 1) blo i j
      ↔ ProcCell alo blo bhi r bhi i j := by
    intro i j
    unfold ProcCell
    omega
  rcases h with ⟨hm, hall⟩ | ⟨i, j, hc, hp, hm, hmax, hfirst⟩
  · left
    exact ⟨hm, fun i j hp => hall i j ((hiff i j).mp hp)⟩
  · right
    exact ⟨i, j, (hiff i j).mpr hc, hp, hm,
      fun ii jj hp => hmax ii jj ((hiff ii jj).mp hp),
      fun ii jj hp heq => hfirst ii jj ((hiff ii jj).mp hp) heq⟩

theorem kf_eq_run (a b : List α) (alo blo bhi r : Nat) (halo : alo ≤ r)
    (s : DPState) (x : α)
    (hrow : ∀ j, s.j2len j
      = if blo ≤ j ∧ j < bhi ∧ alo < r then suffixRun a b alo blo (r - 1) j else 0)
    (hx : a.get? r = some x) (j : Nat) (hbj : blo ≤ j) (hjb : j < bhi)
    (hmatch : b.get? j = some x) :
    (if j = 0 then 0 else s.j2len (j - 1)) + 1 = suffixRun a b alo blo r j := by
  have hcond : alo ≤ r ∧ blo ≤ j ∧ (a.get? r).isSome ∧ a.get? r = b.get? j :=
    ⟨halo, hbj, by rw [hx]; rfl, by rw [hx, hmatch]⟩
  rw [suffixRun, if_pos hcond]
  by_cases hin : r = alo ∨ j = blo
  · rw [if_pos hin]
    by_cases hj0 : j = 0
    · rw [if_pos hj0]
    · rw [if_neg hj0, hrow (j - 1),
        if_neg (by omega : ¬(blo ≤ j - 1 ∧ j - 1 < bhi ∧ alo < r))]
  · rw [if_neg hin]
    have hj1 : 1 ≤ j := by omega
    rw [if_neg (by omega : ¬j = 0), hrow (j - 1),
      if_pos (by omega : blo ≤ j - 1 ∧ j - 1 < bhi ∧ alo < r)]

theorem bestFold_row (a b : List α) (alo blo bhi r : Nat) (halo : alo ≤ r)
    (s : DPState) (x : α)
    (hrow : ∀ j, s.j2len j
      = if blo ≤ j ∧ j < bhi ∧ alo < r then suffixRun a b alo blo (r - 1) j else 0)
    (hx : a.get? r = some x) :
    ∀ (js : List Nat) (c : Nat) (m : Block),
      List.Pairwise (· < ·) js →
      (∀ j ∈ js, c ≤ j ∧ blo ≤ j ∧ j < bhi ∧ b.get? j = some x) →
      (∀ j, c ≤ j → blo ≤ j → j < bhi → b.get? j = some x → j ∈ js) →
      BestCellAt a b alo blo bhi r c m →
      BestCellAt a b alo blo bhi r bhi
        (js.foldl (fun m j =>
          if m.size < (if j = 0 then 0 else s.j2len (j - 1)) + 1 then
            Block.mk (r + 1 - ((if j = 0 then 0 else s.j2len (j - 1)) + 1))
              (j + 1 - ((if j = 0 then 0 else s.j2len (j - 1)) + 1))
              ((if j = 0 then 0 else s.j2len (j - 1)) + 1)
          else m) m) := by
  intro js
  induction js with
  | nil =>
    intro c m hsort hmem hcomp h
    rw [List.foldl_nil]
    apply BestCellAt_zero_ext a b alo blo bhi r c bhi (Or.inr (Nat.le_refl _)) ?hz m h
    intro j hj1 hj2 hj3 hj4
    by_cases hm2 : b.get? j = some x
    · exact absurd (hcomp j hj1 hj3 hj4 hm2) (List.not_mem_nil j)
    · exact suffixRun_nomatch a b alo blo r j x hx hm2
  | cons j1 js2 ih =>
    intro c m hsort hmem hcomp h
    obtain ⟨hcj1, hbj1, hj1b, hmj1⟩ := hmem j1 (List.mem_cons_self _ _)
    have h1 : BestCellAt a b alo blo bhi r j1 m := by
      apply BestCellAt_zero_ext a b alo blo bhi r c j1 (Or.inl hcj1) ?hz2 m h
      intro j hj1 hj2 hj3 hj4
      by_cases hm2 : b.get? j = some x
      · exfalso
        rcases List.mem_cons.mp (hcomp j hj1 hj3 hj4 hm2) with rfl | hin2
        · omega
        · have := (List.pairwise_cons.mp hsort).1 j hin2
          omega
      · exact suffixRun_nomatch a b alo blo r j x hx hm2
    rw [List.foldl_cons]
    have hk := kf_eq_run a b alo blo bhi r halo s x hrow hx j1 hbj1 hj1b hmj1
    have h2 := BestCellAt_step a b alo blo bhi r j1 hbj1 hj1b halo
      ((if j1 = 0 then 0 else s.j2len (j1 - 1)) + 1) hk (by omega) m h1
    exact ih (j1 + 1) _ (List.pairwise_cons.mp hsort).2
      (fun j hj => ⟨by
          have := (List.pairwise_cons.mp hsort).1 j hj
          omega,
        (hmem j (List.mem_cons_of_mem _ hj)).2⟩)
      (fun j hc1 hc2 hc3 hc4 => by
        rcases List.mem_cons.mp (hcomp j (by omega) hc2 hc3 hc4) with rfl | hin2
        · omega
        · exact hin2)
      h2

theorem flm_row_step (a b : List α) (hb : b.length < 200) (alo blo bhi r : Nat)
    (halo : alo ≤ r) (hlen : r < a.length) (s : DPState)
    (hs : FlmInv a b alo blo bhi r s) :
    FlmInv a b alo blo bhi (r + 1) (dpRow a b blo bhi s r) := by
  obtain ⟨hrow, hbest⟩ := hs
  have hget : a.get? r = some a[r] := by
    rw [List.get?_eq_getElem?, List.getElem?_eq_getElem hlen]
  unfold dpRow
  rw [hget]
  dsimp only
  rw [b2j_eq_indicesOf b a[r] hb]
  set js := (indicesOf b a[r]).filter
    (fun j => decide (blo ≤ j) && decide (j < bhi)) with hjs
  have hmemjs : ∀ j, j ∈ js ↔ (blo ≤ j ∧ j < bhi ∧ b.get? j = some a[r]) := by
    intro j
    rw [hjs, List.mem_filter, mem_indicesOf]
    constructor
    · rintro ⟨⟨h1, h2⟩, h3⟩
      simp only [Bool.and_eq_true, decide_eq_true_eq] at h3
      exact ⟨h3.1, h3.2, h2⟩
    · rintro ⟨h1, h2, h3⟩
      have hlt : j < b.length := by
        by_contra hge
        rw [List.get?_eq_none.mpr (by omega)] at h3
        simp at h3
      exact ⟨⟨hlt, h3⟩, by simp [h1, h2]⟩
  have hsort : List.Pairwise (· < ·) js := by
    rw [hjs]
    exact (indicesOf_sorted b a[r]).filter _
  constructor
  · intro j
    show (js.foldl (dpStep s r) ((fun _ => 0), s.best)).1 j = _
    rw [dpFold_fst]
    by_cases hin : j ∈ js
    · rw [if_pos hin]
      obtain ⟨h1, h2, h3⟩ := (hmemjs j).mp hin
      rw [if_pos (by omega : blo ≤ j ∧ j < bhi ∧ alo < r + 1),
        show r + 1 - 1 = r by omega]
      exact kf_eq_run a b alo blo bhi r halo s a[r] hrow hget j h1 h2 h3
    · rw [if_neg hin]
      show (0 : Nat) = _
      by_cases hwin : blo ≤ j ∧ j < bhi
      · rw [if_pos (by omega : blo ≤ j ∧ j < bhi ∧ alo < r + 1),
          show r + 1 - 1 = r by omega]
        have hnm : b.get? j ≠ some a[r] :=
          fun hmm => hin ((hmemjs j).mpr ⟨hwin.1, hwin.2, hmm⟩)
        exact (suffixRun_nomatch a b alo blo r j a[r] hget hnm).symm
      · rw [if_neg (by omega : ¬(blo ≤ j ∧ j < bhi ∧ alo < r + 1))]
  · show BestCellAt a b alo blo bhi (r + 1) blo
      (js.foldl (dpStep s r) ((fun _ => 0), s.best)).2
    rw [dpFold_snd]
    have hfold := bestFold_row a b alo blo bhi r halo s a[r] hrow hget js blo s.best
      hsort
      (fun j hj => ⟨((hmemjs j).mp hj).1, ((hmemjs j).mp hj).1,
        ((hmemjs j).mp hj).2.1, ((hmemjs j).mp hj).2.2⟩)
      (fun j h1 h2 h3 h4 => (hmemjs j).mpr ⟨h2, h3, h4⟩)
      hbest
    exact BestCellAt_roll a b alo blo bhi r _ hfold

theorem flmInv_all (a b : List α) (hb : b.length < 200) (alo blo bhi : Nat) :
    ∀ n, alo + n ≤ a.length →
      FlmInv a b alo blo bhi (alo + n)
        ((List.range' alo n).foldl (dpRow a b blo bhi) ⟨⟨alo, blo, 0⟩, fun _ => 0⟩) := by
  intro n
  induction n with
  | zero =>
    intro _
    constructor
    · intro j
      show (0 : Nat) = _
      rw [if_neg (by omega : ¬(blo ≤ j ∧ j < bhi ∧ alo < alo + 0))]
    · left
      refine ⟨rfl, ?_⟩
      intro i j hp
      exact absurd hp (by unfold ProcCell; omega)
  | succ n ih =>
    intro h2
    rw [List.range'_1_concat, List.foldl_append, List.foldl_cons, List.foldl_nil]
    have hprev := ih (by omega)
    have hstep := flm_row_step a b hb alo blo bhi (alo + n) (by omega) (by omega) _ hprev
    rw [show alo + (n + 1) = (alo + n) + 1 by omega]
    exact hstep

theorem flmDP_inv (a b : List α) (hb : b.length < 200) (alo ahi blo bhi : Nat)
    (h1 : alo ≤ ahi) (h2 : ahi ≤ a.length) :
    FlmInv a b alo blo bhi ahi (flmDP a b alo ahi blo bhi) := by
  have h := flmInv_all a b hb alo blo bhi (ahi - alo) (by omega)
  rw [show alo + (ahi - alo) = ahi by omega] at h
  unfold flmDP
  exact h

theorem extendBack_stop (a b : List α) (alo blo : Nat) (besti bestj sz : Nat)
    (h : ∀ hlt : alo < besti, ¬(blo < bestj ∧ (a.get? (besti - 1)).isSome = true
        ∧ a.get? (besti - 1) = b.get? (bestj - 1))) :
    extendBack a b alo blo besti bestj sz = ⟨besti, bestj, sz⟩ := by
  cases besti with
  | zero => rfl
  | succ t =>
    rw [extendBack, if_neg ?hn]
    intro hc
    have h2 := h hc.1
    rw [show t + 1 - 1 = t by omega] at h2
    exact h2 ⟨hc.2.1, hc.2.2.1, hc.2.2.2⟩

theorem extendFwdAux_stop (a b : List α) (ahi bhi besti bestj : Nat) (fuel sz : Nat)
    (h : ¬(besti + sz < ahi ∧ bestj + sz < bhi ∧ (a.get? (besti + sz)).isSome = true
        ∧ a.get? (besti + sz) = b.get? (bestj + sz))) :
    extendFwdAux a b ahi bhi besti bestj fuel sz = sz := by
  cases fuel with
  | zero => rfl
  | succ f => rw [extendFwdAux, if_neg h]

theorem flm_assemble (a b : List α) (alo ahi blo bhi : Nat) (m : Block)
    (hbest : (flmDP a b alo ahi blo bhi).best = m)
    (hEB : extendBack a b alo blo m.a m.b m.size = m)
    (hEF : extendFwdAux a b ahi bhi m.a m.b (ahi - (m.a + m.size)) m.size = m.size) :
    find_longest_match a b alo ahi blo bhi = m := by
  show (Block.mk
      (extendBack a b alo blo (flmDP a b alo ahi blo bhi).best.a
        (flmDP a b alo ahi blo bhi).best.b (flmDP a b alo ahi blo bhi).best.size).a
      (extendBack a b alo blo (flmDP a b alo ahi blo bhi).best.a
        (flmDP a b alo ahi blo bhi).best.b (flmDP a b alo ahi blo bhi).best.size).b
      (extendFwd a b ahi bhi
        (extendBack a b alo blo (flmDP a b alo ahi blo bhi).best.a
          (flmDP a b alo ahi blo bhi).best.b (flmDP a b alo ahi blo bhi).best.size).a
        (extendBack a b alo blo (flmDP a b alo ahi blo bhi).best.a
          (flmDP a b alo ahi blo bhi).best.b (flmDP a b alo ahi blo bhi).best.size).b
        (extendBack a b alo blo (flmDP a b alo ahi blo bhi).best.a
          (flmDP a b alo ahi blo bhi).best.b (flmDP a b alo ahi blo bhi).best.size).size))
    = m
  rw [hbest, hEB]
  unfold extendFwd
  rw [hEF]

theorem flm_assemble2 (a b : List α) (alo ahi blo bhi : Nat) (m : Block)
    (hbest : (flmDP a b alo ahi blo bhi).best = m)
    (hEBs : ∀ hlt : alo < m.a, ¬(blo < m.b ∧ (a.get? (m.a - 1)).isSome = true
        ∧ a.get? (m.a - 1) = b.get? (m.b - 1)))
    (hEFs : ¬(m.a + m.size < ahi ∧ m.b + m.size < bhi
        ∧ (a.get? (m.a + m.size)).isSome = true
        ∧ a.get? (m.a + m.size) = b.get? (m.b + m.size))) :
    find_longest_match a b alo ahi blo bhi = m := by
  apply flm_assemble a b alo ahi blo bhi m hbest
  · exact extendBack_stop a b alo blo m.a m.b m.size hEBs
  · exact extendFwdAux_stop a b ahi bhi m.a m.b _ m.size hEFs

theorem flm_eq_bestBlock (a b : List α) (hb : b.length < 200) (alo ahi blo bhi : Nat)
    (h1 : alo ≤ ahi) (h2 : ahi ≤ a.length) :
    find_longest_match a b alo ahi blo bhi = bestBlockSpec a b alo ahi blo bhi
    ∧ (find_longest_match a b alo ahi blo bhi).size = maxBlockLen a b alo ahi blo bhi
    ∧ (maxBlockLen a b alo ahi blo bhi ≠ 0 →
        isBlockIn a b alo ahi blo bhi (find_longest_match a b alo ahi blo bhi).a
          (find_longest_match a b alo ahi blo bhi).b
          (find_longest_match a b alo ahi blo bhi).size = true) := by
  obtain ⟨hrow, hbest⟩ := flmDP_inv a b hb alo ahi blo bhi h1 h2
  rcases hbest with ⟨hm0, hall⟩ | ⟨i, j, hcell, hpos, hm, hmax, hfirst⟩
  · have hK0 : maxBlockLen a b alo ahi blo bhi = 0 := by
      by_contra h0
      obtain ⟨p, q, hp1, hp2, hq1, hq2, hIB⟩ :=
        (existsBlockOfLen_iff a b alo ahi blo bhi _).mp
          (maxBlockLen_spec a b alo ahi blo bhi h0)
      obtain ⟨g1, g2, g3, g4, g5⟩ :=
        (isBlockIn_iff a b alo ahi blo bhi p q _).mp hIB
      have hrun := block_suffixRun a b alo blo _ p q g5 g1 g3 (by omega)
      have hcl : ProcCell alo blo bhi ahi blo
          (p + maxBlockLen a b alo ahi blo bhi - 1)
          (q + maxBlockLen a b alo ahi blo bhi - 1) := by
        unfold ProcCell
        omega
      rw [hall _ _ hcl] at hrun
      omega
    have hflm : find_longest_match a b alo ahi blo bhi = ⟨alo, blo, 0⟩ := by
      apply flm_assemble2 a b alo ahi blo bhi ⟨alo, blo, 0⟩ hm0
      · intro hlt _
        have hlt2 : alo < alo := hlt
        exact absurd hlt2 (by omega)
      · intro hc
        have hc2 : alo + 0 < ahi ∧ blo + 0 < bhi ∧ (a.get? (alo + 0)).isSome = true
            ∧ a.get? (alo + 0) = b.get? (blo + 0) := hc
        obtain ⟨c1, c2, c3, c4⟩ := hc2
        rw [Nat.add_zero] at c3 c4
        have hr1 : 0 < suffixRun a b alo blo alo blo := by
          rw [suffixRun,
            if_pos ⟨Nat.le_refl _, Nat.le_refl _, c3, by rw [c4, Nat.add_zero]⟩]
          split <;> omega
        have hcl : ProcCell alo blo bhi ahi blo alo blo := by
          unfold ProcCell
          omega
        rw [hall _ _ hcl] at hr1
        omega
    refine ⟨?_, ?_, ?_⟩
    · rw [hflm]
      simp only [bestBlockSpec]
      rw [hK0, if_pos rfl]
    · rw [hflm, hK0]
    · intro h0
      exact absurd hK0 h0
  · set k := suffixRun a b alo blo i j with hkdef
    have hclb : alo ≤ i ∧ blo ≤ j ∧ j < bhi ∧ i < ahi := by
      unfold ProcCell at hcell
      omega
    obtain ⟨hai, hbj, hjb, hia⟩ := hclb
    have hle := suffixRun_le a b alo blo i j
    rw [← hkdef] at hle
    obtain ⟨hBA, hpa, hqb⟩ := suffixRun_block a b alo blo k i j hkdef.symm hpos
    have hp1k : k ≤ i + 1 := by omega
    have hq1k : k ≤ j + 1 := by omega
    have hIB : isBlockIn a b alo ahi blo bhi (i + 1 - k) (j + 1 - k) k = true := by
      rw [isBlockIn_iff]
      exact ⟨hpa, by omega, hqb, by omega, hBA⟩
    have hKk : maxBlockLen a b alo ahi blo bhi = k := by
      have hk1 : k ≤ maxBlockLen a b alo ahi blo bhi :=
        le_maxBlockLen a b alo ahi blo bhi _ _ k hIB (by omega)
      have hk2 : maxBlockLen a b alo ahi blo bhi ≤ k := by
        by_contra hgt
        have h0 : maxBlockLen a b alo ahi blo bhi ≠ 0 := by omega
        obtain ⟨p2, q2, e1, e2, e3, e4, hIB2⟩ :=
          (existsBlockOfLen_iff a b alo ahi blo bhi _).mp
            (maxBlockLen_spec a b alo ahi blo bhi h0)
        obtain ⟨g1, g2, g3, g4, g5⟩ :=
          (isBlockIn_iff a b alo ahi blo bhi p2 q2 _).mp hIB2
        have hrun2 := block_suffixRun a b alo blo _ p2 q2 g5 g1 g3 (by omega)
        have hcl2 : ProcCell alo blo bhi ahi blo
            (p2 + maxBlockLen a b alo ahi blo bhi - 1)
            (q2 + maxBlockLen a b alo ahi blo bhi - 1) := by
          unfold ProcCell
          omega
        have := hmax _ _ hcl2
        omega
      omega
    have hBBS : bestBlockSpec a b alo ahi blo bhi = ⟨i + 1 - k, j + 1 - k, k⟩ := by
      simp only [bestBlockSpec]
      rw [hKk, if_neg (by omega : ¬k = 0)]
      have hps : (((List.range' alo (ahi - alo)).filter (fun p =>
          (List.range' blo (bhi - blo)).any (fun q =>
            isBlockIn a b alo ahi blo bhi p q k))).headD alo) = i + 1 - k := by
        apply filter_headD_min
        · exact hpa
        · omega
        · rw [List.any_eq_true]
          exact ⟨j + 1 - k, List.mem_range'_1.mpr ⟨hqb, by omega⟩, hIB⟩
        · intro pp hpp1 hpp2
          cases hpt : ((List.range' blo (bhi - blo)).any (fun q =>
              isBlockIn a b alo ahi blo bhi pp q k)) with
          | false => rfl
          | true =>
            exfalso
            rw [List.any_eq_true] at hpt
            obtain ⟨qq, hqq, hIB3⟩ := hpt
            rw [List.mem_range'_1] at hqq
            obtain ⟨g1, g2, g3, g4, g5⟩ :=
              (isBlockIn_iff a b alo ahi blo bhi pp qq k).mp hIB3
            have hrun3 := block_suffixRun a b alo blo k pp qq g5 g1 g3 (by omega)
            have hcl3 : ProcCell alo blo bhi ahi blo (pp + k - 1) (qq + k - 1) := by
              unfold ProcCell
              omega
            have hle3 := hmax _ _ hcl3
            have heq3 : suffixRun a b alo blo (pp + k - 1) (qq + k - 1) = k := by omega
            have hf := hfirst _ _ hcl3 heq3
            omega
      rw [hps]
      have hqs : (((List.range' blo (bhi - blo)).filter (fun q =>
          isBlockIn a b alo ahi blo bhi (i + 1 - k) q k)).headD blo) = j + 1 - k := by
        apply filter_headD_min
        · exact hqb
        · omega
        · exact hIB
        · intro qq hqq1 hqq2
          cases hqt : isBlockIn a b alo ahi blo bhi (i + 1 - k) qq k with
          | false => rfl
          | true =>
            exfalso
            obtain ⟨g1, g2, g3, g4, g5⟩ :=
              (isBlockIn_iff a b alo ahi blo bhi (i + 1 - k) qq k).mp hqt
            have hrun3 := block_suffixRun a b alo blo k (i + 1 - k) qq g5 g1 g3 (by omega)
            have hcl3 : ProcCell alo blo bhi ahi blo (i + 1 - k + k - 1) (qq + k - 1) := by
              unfold ProcCell
              omega
            have hle3 := hmax _ _ hcl3
            have heq3 : suffixRun a b alo blo (i + 1 - k + k - 1) (qq + k - 1) = k := by
              omega
            have hf := hfirst _ _ hcl3 heq3
            omega
      rw [hqs]
    have hflm : find_longest_match a b alo ahi blo bhi = ⟨i + 1 - k, j + 1 - k, k⟩ := by
      apply flm_assemble2 a b alo ahi blo bhi _ hm
      · intro hlt hc
        have hlt2 : alo < i + 1 - k := hlt
        have hc2 : blo < j + 1 - k ∧ (a.get? (i + 1 - k - 1)).isSome = true
            ∧ a.get? (i + 1 - k - 1) = b.get? (j + 1 - k - 1) := hc
        obtain ⟨c1, c2, c3⟩ := hc2
        have hBA1 : blockAt a b (i + 1 - k - 1) (j + 1 - k - 1) 1 = true := by
          rw [blockAt_iff]
          intro t ht
          have : t = 0 := by omega
          subst this
          rw [Nat.add_zero, Nat.add_zero]
          exact ⟨c2, c3⟩
        have hBAk : blockAt a b (i + 1 - k - 1 + 1) (j + 1 - k - 1 + 1) k = true := by
          rw [show i + 1 - k - 1 + 1 = i + 1 - k by omega,
            show j + 1 - k - 1 + 1 = j + 1 - k by omega]
          exact hBA
        have hcat := blockAt_concat a b _ _ 1 k hBA1 hBAk
        have hIB4 : isBlockIn a b alo ahi blo bhi
            (i + 1 - k - 1) (j + 1 - k - 1) (1 + k) = true := by
          rw [isBlockIn_iff]
          exact ⟨by omega, by omega, by omega, by omega, hcat⟩
        have hle4 := le_maxBlockLen a b alo ahi blo bhi _ _ _ hIB4 (by omega)
        rw [hKk] at hle4
        omega
      · intro hc
        have hc2 : i + 1 - k + k < ahi ∧ j + 1 - k + k < bhi
            ∧ (a.get? (i + 1 - k + k)).isSome = true
            ∧ a.get? (i + 1 - k + k) = b.get? (j + 1 - k + k) := hc
        obtain ⟨c1, c2, c3, c4⟩ := hc2
        have hsn := blockAt_snoc a b (i + 1 - k) (j + 1 - k) k hBA c3 c4
        have hIB5 : isBlockIn a b alo ahi blo bhi
            (i + 1 - k) (j + 1 - k) (k + 1) = true := by
          rw [isBlockIn_iff]
          exact ⟨hpa, by omega, hqb, by omega, hsn⟩
        have hle5 := le_maxBlockLen a b alo ahi blo bhi _ _ _ hIB5 (by omega)
        rw [hKk] at hle5
        omega
    refine ⟨?_, ?_, ?_⟩
    · rw [hflm, hBBS]
    · rw [hflm, hKk]
    · intro h0
      rw [hflm]
      exact hIB

theorem opcodesFromBlocks_cons_gap (i j : Nat) (m : Block) (rest : List Block) :
    opcodesFromBlocks i j (m :: rest)
      = gapOp i j m.a m.b
        ++ (if m.size ≠ 0 then
            [Opcode.mk .equal m.a (m.a + m.size) m.b (m.b + m.size)] else [])
        ++ opcodesFromBlocks (m.a + m.size) (m.b + m.size) rest := rfl

theorem opcodesFromBlocks_append :
    ∀ (bs rest : List Block) (i j : Nat),
      opcodesFromBlocks i j (bs ++ rest)
        = opcodesFromBlocks i j bs
          ++ opcodesFromBlocks (blocksEndA i bs) (blocksEndB j bs) rest := by
  intro bs
  induction bs with
  | nil =>
    intro rest i j
    rfl
  | cons m bs2 ih =>
    intro rest i j
    rw [List.cons_append, opcodesFromBlocks_cons_gap, opcodesFromBlocks_cons_gap,
      blocksEndA_cons, blocksEndB_cons, ih rest (m.a + m.size) (m.b + m.size)]
    simp only [List.append_assoc]

theorem opcodesFromBlocks_one_zero (i j i2 j2 : Nat) :
    opcodesFromBlocks i j [⟨i2, j2, 0⟩] = gapOp i j i2 j2 := by
  rw [opcodesFromBlocks_cons_gap]
  dsimp only
  rw [if_neg (by omega : ¬(0 : Nat) ≠ 0)]
  show gapOp i j i2 j2 ++ [] ++ opcodesFromBlocks (i2 + 0) (j2 + 0) [] = gapOp i j i2 j2
  rw [show opcodesFromBlocks (i2 + 0) (j2 + 0) [] = [] from rfl,
    List.append_nil, List.append_nil]

theorem alignSpecAux_leaf (a b : List α) :
    ∀ (fuel alo ahi blo bhi : Nat), (alo = ahi ∨ blo = bhi) →
      (ahi - alo) + (bhi - blo) ≤ fuel →
      alignSpecAux a b fuel alo ahi blo bhi = gapOp alo blo ahi bhi := by
  intro fuel
  cases fuel with
  | zero =>
    intro alo ahi blo bhi hside hfuel
    show ([] : List Opcode) = gapOp alo blo ahi bhi
    unfold gapOp
    rw [if_neg (by omega), if_neg (by omega), if_neg (by omega)]
  | succ f =>
    intro alo ahi blo bhi hside hfuel
    rw [alignSpecAux]
    have hbbs : bestBlockSpec a b alo ahi blo bhi = ⟨alo, blo, 0⟩ := by
      simp only [bestBlockSpec]
      rw [maxBlockLen_empty a b alo ahi blo bhi hside, if_pos rfl]
    rw [hbbs]
    dsimp only
    rw [if_pos rfl]
    rfl

theorem walk_eq_alignSpec (a b : List α) (hb : b.length < 200) :
    ∀ (fuel alo ahi blo bhi : Nat),
      alo ≤ ahi → ahi ≤ a.length → blo ≤ bhi → bhi ≤ b.length →
      (ahi - alo) + (bhi - blo) ≤ fuel →
      opcodesFromBlocks alo blo
          (mblocksAux a b fuel alo ahi blo bhi ++ [⟨ahi, bhi, 0⟩])
        = alignSpecAux a b fuel alo ahi blo bhi := by
  intro fuel
  induction fuel with
  | zero =>
    intro alo ahi blo bhi h1 h2 h3 h4 hfuel
    show opcodesFromBlocks alo blo ([] ++ [⟨ahi, bhi, 0⟩]) = []
    rw [List.nil_append, opcodesFromBlocks_one_zero]
    unfold gapOp
    rw [if_neg (by omega), if_neg (by omega), if_neg (by omega)]
  | succ fuel ih =>
    intro alo ahi blo bhi h1 h2 h3 h4 hfuel
    obtain ⟨hflm, hsizeK, hblk⟩ := flm_eq_bestBlock a b hb alo ahi blo bhi h1 h2
    obtain ⟨hba, hbb, hbsa, hbsb⟩ := flm_bounds a b alo ahi blo bhi h1 h3
    rw [mblocksAux, alignSpecAux, ← hflm]
    set m := find_longest_match a b alo ahi blo bhi with hmdef
    by_cases hsz : m.size = 0
    · rw [if_pos hsz, if_pos hsz]
      rw [List.nil_append, opcodesFromBlocks_one_zero]
      rfl
    · rw [if_neg hsz, if_neg hsz]
      have hfl : (m.a - alo) + (m.b - blo) ≤ fuel := by omega
      have hfr : (ahi - (m.a + m.size)) + (bhi - (m.b + m.size)) ≤ fuel := by omega
      by_cases hL : alo < m.a ∧ blo < m.b
      · rw [if_pos hL]
        have hAL : alignSpecAux a b fuel alo m.a blo m.b
            = opcodesFromBlocks alo blo (mblocksAux a b fuel alo m.a blo m.b)
              ++ gapOp (blocksEndA alo (mblocksAux a b fuel alo m.a blo m.b))
                  (blocksEndB blo (mblocksAux a b fuel alo m.a blo m.b)) m.a m.b := by
          rw [← ih alo m.a blo m.b (by omega) (by omega) (by omega) (by omega) hfl]
          rw [opcodesFromBlocks_append, opcodesFromBlocks_one_zero]
        by_cases hR : m.a + m.size < ahi ∧ m.b + m.size < bhi
        · rw [if_pos hR]
          simp only [List.append_assoc, List.cons_append, List.nil_append,
            List.singleton_append]
          rw [opcodesFromBlocks_append, opcodesFromBlocks_cons_gap, if_pos hsz]
          rw [ih (m.a + m.size) ahi (m.b + m.size) bhi (by omega) h2 (by omega) h4 hfr]
          rw [hAL]
          simp [List.append_assoc]
        · rw [if_neg hR]
          have hAR : alignSpecAux a b fuel (m.a + m.size) ahi (m.b + m.size) bhi
              = gapOp (m.a + m.size) (m.b + m.size) ahi bhi :=
            alignSpecAux_leaf a b fuel _ ahi _ bhi (by omega) hfr
          simp only [List.append_assoc, List.cons_append, List.nil_append,
            List.singleton_append, List.append_nil]
          rw [opcodesFromBlocks_append, opcodesFromBlocks_cons_gap, if_pos hsz]
          rw [opcodesFromBlocks_one_zero, hAL, hAR]
          simp [List.append_assoc]
      · rw [if_neg hL]
        have hAL : alignSpecAux a b fuel alo m.a blo m.b
            = gapOp alo blo m.a m.b :=
          alignSpecAux_leaf a b fuel alo _ blo _ (by omega) hfl
        by_cases hR : m.a + m.size < ahi ∧ m.b + m.size < bhi
        · rw [if_pos hR]
          simp only [List.append_assoc, List.cons_append, List.nil_append,
            List.singleton_append]
          rw [opcodesFromBlocks_cons_gap, if_pos hsz]
          rw [ih (m.a + m.size) ahi (m.b + m.size) bhi (by omega) h2 (by omega) h4 hfr]
          rw [hAL]
          simp [List.append_assoc]
        · rw [if_neg hR]
          have hAR : alignSpecAux a b fuel (m.a + m.size) ahi (m.b + m.size) bhi
              = gapOp (m.a + m.size) (m.b + m.size) ahi bhi :=
            alignSpecAux_leaf a b fuel _ ahi _ bhi (by omega) hfr
          simp only [List.append_assoc, List.cons_append, List.nil_append,
            List.singleton_append, List.append_nil]
          rw [opcodesFromBlocks_cons_gap, if_pos hsz]
          rw [opcodesFromBlocks_one_zero, hAL, hAR]
          simp [List.append_assoc]

theorem isBlockIn_mono (a b : List α) (alo ahi blo bhi alo2 ahi2 blo2 bhi2 p q k : Nat)
    (h : isBlockIn a b alo2 ahi2 blo2 bhi2 p q k = true)
    (h1 : alo ≤ alo2) (h2 : ahi2 ≤ ahi) (h3 : blo ≤ blo2) (h4 : bhi2 ≤ bhi) :
    isBlockIn a b alo ahi blo bhi p q k = true := by
  rw [isBlockIn_iff] at h ⊢
  obtain ⟨g1, g2, g3, g4, g5⟩ := h
  exact ⟨by omega, by omega, by omega, by omega, g5⟩

theorem mem_of_getLast?_block {l : List Block} {x : Block} (h : x ∈ l.getLast?) :
    x ∈ l := by
  obtain ⟨hne, rfl⟩ := List.mem_getLast?_eq_getLast h
  exact List.getLast_mem hne

theorem mblocksAux_blocks (a b : List α) (hb : b.length < 200) :
    ∀ (fuel alo ahi blo bhi : Nat),
      alo ≤ ahi → ahi ≤ a.length → blo ≤ bhi → bhi ≤ b.length →
      (∀ x ∈ mblocksAux a b fuel alo ahi blo bhi,
          x.size ≠ 0 ∧ isBlockIn a b alo ahi blo bhi x.a x.b x.size = true)
      ∧ List.Chain' NAdj (mblocksAux a b fuel alo ahi blo bhi) := by
  intro fuel
  induction fuel with
  | zero =>
    intro alo ahi blo bhi _ _ _ _
    exact ⟨fun x hx => absurd hx (List.not_mem_nil x), List.chain'_nil⟩
  | succ fuel ih =>
    intro alo ahi blo bhi h1 h2 h3 h4
    obtain ⟨hflm, hsizeK, hblk⟩ := flm_eq_bestBlock a b hb alo ahi blo bhi h1 h2
    obtain ⟨hba, hbb, hbsa, hbsb⟩ := flm_bounds a b alo ahi blo bhi h1 h3
    rw [mblocksAux]
    set m := find_longest_match a b alo ahi blo bhi with hmdef
    by_cases hsz : m.size = 0
    · rw [if_pos hsz]
      exact ⟨fun x hx => absurd hx (List.not_mem_nil x), List.chain'_nil⟩
    · rw [if_neg hsz]
      have hmIB : isBlockIn a b alo ahi blo bhi m.a m.b m.size = true := by
        apply hblk
        omega
      obtain ⟨f1, f2, f3, f4, f5⟩ :=
        (isBlockIn_iff a b alo ahi blo bhi m.a m.b m.size).mp hmIB
      have hLfacts : (∀ x ∈ (if alo < m.a ∧ blo < m.b then
              mblocksAux a b fuel alo m.a blo m.b else []),
            x.size ≠ 0 ∧ isBlockIn a b alo m.a blo m.b x.a x.b x.size = true)
          ∧ List.Chain' NAdj (if alo < m.a ∧ blo < m.b then
              mblocksAux a b fuel alo m.a blo m.b else []) := by
        by_cases hL : alo < m.a ∧ blo < m.b
        · rw [if_pos hL]
          exact ih alo m.a blo m.b (by omega) (by omega) (by omega) (by omega)
        · rw [if_neg hL]
          exact ⟨fun x hx => absurd hx (List.not_mem_nil x), List.chain'_nil⟩
      have hRfacts : (∀ x ∈ (if m.a + m.size < ahi ∧ m.b + m.size < bhi then
              mblocksAux a b fuel (m.a + m.size) ahi (m.b + m.size) bhi else []),
            x.size ≠ 0
              ∧ isBlockIn a b (m.a + m.size) ahi (m.b + m.size) bhi x.a x.b x.size = true)
          ∧ List.Chain' NAdj (if m.a + m.size < ahi ∧ m.b + m.size < bhi then
              mblocksAux a b fuel (m.a + m.size) ahi (m.b + m.size) bhi else []) := by
        by_cases hR : m.a + m.size < ahi ∧ m.b + m.size < bhi
        · rw [if_pos hR]
          exact ih (m.a + m.size) ahi (m.b + m.size) bhi (by omega) h2 (by omega) h4
        · rw [if_neg hR]
          exact ⟨fun x hx => absurd hx (List.not_mem_nil x), List.chain'_nil⟩
      obtain ⟨hLmem, hLch⟩ := hLfacts
      obtain ⟨hRmem, hRch⟩ := hRfacts
      constructor
      · intro x hx
        rw [List.append_assoc, List.singleton_append, List.mem_append] at hx
        rcases hx with hx | hx
        · obtain ⟨hxs, hxIB⟩ := hLmem x hx
          exact ⟨hxs, isBlockIn_mono a b alo ahi blo bhi alo m.a blo m.b _ _ _ hxIB
            (Nat.le_refl _) (by omega) (Nat.le_refl _) (by omega)⟩
        · rcases List.mem_cons.mp hx with rfl | hx
          · exact ⟨hsz, hmIB⟩
          · obtain ⟨hxs, hxIB⟩ := hRmem x hx
            exact ⟨hxs, isBlockIn_mono a b alo ahi blo bhi (m.a + m.size) ahi
              (m.b + m.size) bhi _ _ _ hxIB (by omega) (Nat.le_refl _) (by omega)
              (Nat.le_refl _)⟩
      · rw [List.append_assoc, List.singleton_append, List.chain'_append]
        refine ⟨hLch, ?_, ?_⟩
        · rw [List.chain'_cons']
          refine ⟨?_, hRch⟩
          intro y hy
          have hyRB := List.mem_of_mem_head? hy
          obtain ⟨hys, hyIB⟩ := hRmem y hyRB
          obtain ⟨g1, g2, g3, g4, g5⟩ :=
            (isBlockIn_iff a b (m.a + m.size) ahi (m.b + m.size) bhi y.a y.b y.size).mp hyIB
          intro hadj
          obtain ⟨e1, e2⟩ := hadj
          have hcat : blockAt a b m.a m.b (m.size + y.size) = true := by
            apply blockAt_concat a b m.a m.b m.size y.size f5
            rw [e1, e2]
            exact g5
          have hIBc : isBlockIn a b alo ahi blo bhi m.a m.b (m.size + y.size) = true := by
            rw [isBlockIn_iff]
            exact ⟨f1, by omega, f3, by omega, hcat⟩
          have hlec := le_maxBlockLen a b alo ahi blo bhi _ _ _ hIBc (by omega)
          omega
        · intro x hx y hy
          have hxLB := mem_of_getLast?_block hx
          have hy2 : m = y := by simpa using hy
          subst hy2
          obtain ⟨hxs, hxIB⟩ := hLmem x hxLB
          obtain ⟨g1, g2, g3, g4, g5⟩ :=
            (isBlockIn_iff a b alo m.a blo m.b x.a x.b x.size).mp hxIB
          intro hadj
          obtain ⟨e1, e2⟩ := hadj
          have hcat : blockAt a b x.a x.b (x.size + m.size) = true := by
            apply blockAt_concat a b x.a x.b x.size m.size g5
            rw [e1, e2]
            exact f5
          have hIBc : isBlockIn a b alo ahi blo bhi x.a x.b (x.size + m.size) = true := by
            rw [isBlockIn_iff]
            exact ⟨g1, by omega, g3, by omega, hcat⟩
          have hlec := le_maxBlockLen a b alo ahi blo bhi _ _ _ hIBc (by omega)
          omega

theorem collapseAux_nonadj :
    ∀ (bs : List Block) (cur : Block),
      (∀ x ∈ bs, x.size ≠ 0) → List.Chain' NAdj (cur :: bs) →
      collapseAux cur bs = (if cur.size ≠ 0 then [cur] else []) ++ bs := by
  intro bs
  induction bs with
  | nil =>
    intro cur _ _
    rw [collapseAux, List.append_nil]
  | cons m rest ih =>
    intro cur hnz hch
    rw [List.chain'_cons'] at hch
    obtain ⟨hhead, hch2⟩ := hch
    have hnadj : NAdj cur m := hhead m (by simp)
    rw [collapseAux, if_neg hnadj]
    rw [ih m (fun x hx => hnz x (List.mem_cons_of_mem _ hx)) hch2]
    rw [if_pos (hnz m (List.mem_cons_self _ _)), List.singleton_append]

theorem get_matching_blocks_eq (a b : List α) (hb : b.length < 200) :
    get_matching_blocks a b
      = mblocksAux a b (a.length + b.length) 0 a.length 0 b.length
        ++ [⟨a.length, b.length, 0⟩] := by
  unfold get_matching_blocks
  obtain ⟨hmem, hch⟩ := mblocksAux_blocks a b hb (a.length + b.length) 0 a.length
    0 b.length (Nat.zero_le _) (Nat.le_refl _) (Nat.zero_le _) (Nat.le_refl _)
  cases hbse : mblocksAux a b (a.length + b.length) 0 a.length 0 b.length with
  | nil => rfl
  | cons m rest =>
    rw [hbse] at hmem hch
    by_cases hadj : (0 : Nat) + 0 = m.a ∧ (0 : Nat) + 0 = m.b
    · rw [collapseAux, if_pos hadj]
      dsimp only
      have hm2 : (⟨0, 0, 0 + m.size⟩ : Block) = m := by
        have e1 : 0 + 0 = m.a := hadj.1
        have e2 : 0 + 0 = m.b := hadj.2
        obtain ⟨ma, mb2, ms⟩ := m
        show Block.mk 0 0 (0 + ms) = Block.mk ma mb2 ms
        have e3 : ma = 0 := by
          have e1b : 0 + 0 = ma := e1
          omega
        have e4 : mb2 = 0 := by
          have e2b : 0 + 0 = mb2 := e2
          omega
        rw [e3, e4, Nat.zero_add]
      rw [collapseAux_nonadj rest ⟨0, 0, 0 + m.size⟩
        (fun x hx => (hmem x (List.mem_cons_of_mem _ hx)).1)
        (by rw [hm2]; exact hch)]
      rw [hm2]
      rw [if_pos (hmem m (List.mem_cons_self _ _)).1]
      rfl
    · rw [collapseAux, if_neg hadj]
      rw [collapseAux_nonadj rest m
        (fun x hx => (hmem x (List.mem_cons_of_mem _ hx)).1) hch]
      dsimp only
      rw [if_neg (by omega : ¬(0 : Nat) ≠ 0), List.nil_append,
        if_pos (hmem m (List.mem_cons_self _ _)).1]
      rfl

/-- C5: diffing a document against an identical copy of itself yields an
empty change list from the line-diff stage and, from the word-diff stage,
highlight maps whose red and green rectangle lists are empty on every page
of both sides. -/
theorem C5_identity {β : Type} (d : List (RawPage β)) :
    line_diff_changes (extract_text_per_page d) (extract_text_per_page d) = []
    ∧ word_diff d d
      = (List.replicate d.length ⟨[], []⟩, List.replicate d.length ⟨[], []⟩) :=
  ⟨line_diff_self _, word_diff_self d⟩

/-- C2 (amended): for a right-hand sequence of fewer than 200 tokens — so
difflib's autojunk heuristic purges nothing — the Sequence Aligner's edit
script is exactly the specification's recursion: repeatedly select the
longest contiguous matching block of the current window (tokens compared by
exact value equality), ties in length broken first by the earliest start in
the left sequence and then by the earliest start in the right sequence,
emitting a single Replace (or Delete/Insert when one side of the window is
empty, nothing when both are) for windows without a matching block of
length ≥ 1.  Without the length restriction the claim is false: see the
autojunk counterexample. -/
theorem C2_longest_block_alignment (a b : List α) (hb : b.length < 200) :
    get_opcodes a b = align_spec a b := by
  unfold get_opcodes align_spec
  rw [get_matching_blocks_eq a b hb]
  exact walk_eq_alignSpec a b hb (a.length + b.length) 0 a.length 0 b.length
    (Nat.zero_le _) (Nat.le_refl _) (Nat.zero_le _) (Nat.le_refl _) (by omega)

set_option maxRecDepth 10000 in
/-- C2 counterexample: with a 200-token right-hand sequence the autojunk
heuristic of `SequenceMatcher.__chain_b` purges the value `1` (it occurs
4 > 200/100 + 1 = 3 times in `b`), so the aligner of the code misses the
length-1 matching block and emits a single `replace`, while the
specification's longest-block recursion finds the block and emits
`insert`/`equal`/`insert`. -/
theorem C2_counterexample_autojunk :
    get_opcodes ([1] : List Nat) (List.replicate 195 2 ++ [1, 1, 1, 1] ++ [2])
      ≠ align_spec ([1] : List Nat) (List.replicate 195 2 ++ [1, 1, 1, 1] ++ [2]) := by
  decide

/-- Witness for the amended C2 at a concrete input. -/
theorem C2_longest_block_alignment_witness :
    ([1, 2, 3] : List Nat).length < 200
      ∧ get_opcodes ([0, 1, 2] : List Nat) [1, 2, 3]
          = align_spec ([0, 1, 2] : List Nat) [1, 2, 3] :=
  ⟨by decide, C2_longest_block_alignment [0, 1, 2] [1, 2, 3] (by decide)⟩

end PdfCompare
